import Mathlib

/-!
Verification of the merge engine of `build_sc2map.py`.

The file shallowly embeds the script's pure merge logic:
* `xml_identity_key`, `element_signature`, `merge_xml_children_nodes`,
  `merge_catalog_xml` (the hierarchical XML merge),
* `read_ini`, `merge_dicts`, `merge_ini_files` (the INI/TXT section merge),
* `merge_file_triple` (the per-path router).

XML elements are modelled as a nested inductive tree (`Elem`); Python dicts
(attribute maps, INI tables, `key_map`, `by_id`) are modelled as insertion
ordered association lists with dict update semantics (`dictSet`); lxml's
in-place child mutation is modelled by indexing children by position and
updating the list at an index.
-/

set_option maxHeartbeats 1000000

namespace SC2

/-! ### Association lists with Python-dict semantics -/

/-- `d.get(k)`: first binding of `k` (lists built by `dictSet` have unique keys). -/
def alGet {α : Type} (l : List (String × α)) (k : String) : Option α :=
  match l with
  | [] => none
  | (k', v) :: rest => if k' = k then some v else alGet rest k

/-- `d[k] = v`: overwrite the binding in place if the key exists, else append. -/
def dictSet {α : Type} (l : List (String × α)) (k : String) (v : α) :
    List (String × α) :=
  if l.any (fun p => p.1 = k) then
    l.map (fun p => if p.1 = k then (k, v) else p)
  else
    l ++ [(k, v)]

/-- Keys of an association list. -/
def alKeys {α : Type} (l : List (String × α)) : List String := l.map (·.1)

/-! ### Sorting, as used by `sorted(...)` in the script

Python compares strings lexicographically by code point; we implement a
computable three-way comparison on the character lists and derive the
order facts (`IsTotal`/`IsTrans`/`IsAntisymm`) needed to reason about
`sorted(...)` canonically. -/

/-- Three-way lexicographic comparison of character lists (Python's `<`). -/
def cmpChars : List Char → List Char → Ordering
  | [], [] => .eq
  | [], _ :: _ => .lt
  | _ :: _, [] => .gt
  | a :: as, b :: bs =>
    if a < b then .lt else if b < a then .gt else cmpChars as bs

theorem cmpChars_eq_iff : ∀ a b : List Char, cmpChars a b = .eq ↔ a = b := by
  intro a
  induction a with
  | nil => intro b; cases b <;> simp [cmpChars]
  | cons x xs ih =>
    intro b
    cases b with
    | nil => simp [cmpChars]
    | cons y ys =>
      by_cases h1 : x < y
      · simp [cmpChars, h1]
        intro h; exact absurd h1 (h ▸ lt_irrefl _)
      · by_cases h2 : y < x
        · simp [cmpChars, h1, h2]
          intro h; exact absurd h2 (h ▸ lt_irrefl _)
        · have hxy : x = y := le_antisymm (not_lt.mp h2) (not_lt.mp h1)
          simp [cmpChars, h1, h2, hxy, ih]

theorem cmpChars_swap : ∀ a b : List Char, cmpChars a b = (cmpChars b a).swap := by
  intro a
  induction a with
  | nil => intro b; cases b <;> simp [cmpChars, Ordering.swap]
  | cons x xs ih =>
    intro b
    cases b with
    | nil => simp [cmpChars, Ordering.swap]
    | cons y ys =>
      by_cases h1 : x < y
      · have h2 : ¬ y < x := lt_asymm h1
        simp [cmpChars, h1, h2, Ordering.swap]
      · by_cases h2 : y < x
        · simp [cmpChars, h1, h2, Ordering.swap]
        · simp [cmpChars, h1, h2, ih]

theorem cmpChars_lt_trans : ∀ a b c : List Char,
    cmpChars a b = .lt → cmpChars b c = .lt → cmpChars a c = .lt := by
  intro a
  induction a with
  | nil =>
    intro b c hab hbc
    cases b with
    | nil => exact hbc
    | cons y ys =>
      cases c with
      | nil => simp [cmpChars] at hbc
      | cons z zs => simp [cmpChars]
  | cons x xs ih =>
    intro b c hab hbc
    cases b with
    | nil => simp [cmpChars] at hab
    | cons y ys =>
      cases c with
      | nil => simp [cmpChars] at hbc
      | cons z zs =>
        simp only [cmpChars] at hab hbc ⊢
        by_cases hxy : x < y
        · by_cases hyz : y < z
          · simp [show x < z from hxy.trans hyz]
          · by_cases hzy : z < y
            · simp [hyz, hzy] at hbc
            · have : y = z := le_antisymm (not_lt.mp hzy) (not_lt.mp hyz)
              simp [this ▸ hxy]
        · by_cases hyx : y < x
          · simp [hxy, hyx] at hab
          · have hxy' : x = y := le_antisymm (not_lt.mp hyx) (not_lt.mp hxy)
            subst hxy'
            by_cases hyz : x < z
            · simp [hyz]
            · by_cases hzy : z < x
              · simp [hyz, hzy] at hbc
              · simp [hyz, hzy] at hab hbc ⊢
                exact ih ys zs (by simpa [hxy] using hab) (by simpa using hbc)

/-- Three-way comparison of strings by code points. -/
def strCmp (a b : String) : Ordering := cmpChars a.data b.data

theorem strCmp_eq_iff (a b : String) : strCmp a b = .eq ↔ a = b := by
  unfold strCmp
  rw [cmpChars_eq_iff]
  constructor
  · intro h
    cases a with
    | mk xs =>
      cases b with
      | mk ys => exact congrArg String.mk h
  · intro h; rw [h]

theorem strCmp_swap (a b : String) : strCmp a b = (strCmp b a).swap :=
  cmpChars_swap a.data b.data

theorem strCmp_lt_trans {a b c : String} (h1 : strCmp a b = .lt)
    (h2 : strCmp b c = .lt) : strCmp a c = .lt :=
  cmpChars_lt_trans a.data b.data c.data h1 h2

/-- Three-way comparison of naturals. -/
def natCmp (a b : Nat) : Ordering :=
  if a < b then .lt else if b < a then .gt else .eq

theorem natCmp_eq_iff (a b : Nat) : natCmp a b = .eq ↔ a = b := by
  unfold natCmp
  by_cases h1 : a < b
  · simp [h1]; omega
  · by_cases h2 : b < a <;> simp [h1, h2] <;> omega

theorem natCmp_swap (a b : Nat) : natCmp a b = (natCmp b a).swap := by
  unfold natCmp
  by_cases h1 : a < b
  · simp [h1, show ¬ b < a by omega, Ordering.swap]
  · by_cases h2 : b < a <;> simp [h1, h2, Ordering.swap]

theorem natCmp_lt_trans {a b c : Nat} (h1 : natCmp a b = .lt)
    (h2 : natCmp b c = .lt) : natCmp a c = .lt := by
  have hab : a < b := by
    by_contra h
    unfold natCmp at h1
    rw [if_neg h] at h1
    by_cases h' : b < a
    · rw [if_pos h'] at h1; cases h1
    · rw [if_neg h'] at h1; cases h1
  have hbc : b < c := by
    by_contra h
    unfold natCmp at h2
    rw [if_neg h] at h2
    by_cases h' : c < b
    · rw [if_pos h'] at h2; cases h2
    · rw [if_neg h'] at h2; cases h2
  unfold natCmp
  rw [if_pos (hab.trans hbc)]

/-- Lexicographic product of two comparators (Python tuple order). -/
def prodCmp {α β : Type} (ca : α → α → Ordering) (cb : β → β → Ordering)
    (x y : α × β) : Ordering :=
  (ca x.1 y.1).then (cb x.2 y.2)

theorem prodCmp_eq_iff {α β : Type} {ca : α → α → Ordering}
    {cb : β → β → Ordering} (ha : ∀ x y, ca x y = .eq ↔ x = y)
    (hb : ∀ x y, cb x y = .eq ↔ x = y) (x y : α × β) :
    prodCmp ca cb x y = .eq ↔ x = y := by
  unfold prodCmp
  rcases h : ca x.1 y.1 with _ | _ | _ <;> simp [Ordering.then]
  · intro h2
    rw [h2, (ha y.1 y.1).mpr rfl] at h
    cases h
  · rw [hb]
    constructor
    · intro h2
      exact Prod.ext ((ha _ _).mp h) h2
    · intro h2; rw [h2]
  · intro h2
    rw [h2, (ha y.1 y.1).mpr rfl] at h
    cases h

theorem prodCmp_swap {α β : Type} {ca : α → α → Ordering}
    {cb : β → β → Ordering} (ha : ∀ x y, ca x y = (ca y x).swap)
    (hb : ∀ x y, cb x y = (cb y x).swap) (x y : α × β) :
    prodCmp ca cb x y = (prodCmp ca cb y x).swap := by
  unfold prodCmp
  rw [ha x.1 y.1, hb x.2 y.2]
  rcases ca y.1 x.1 with _ | _ | _ <;> simp [Ordering.then, Ordering.swap]

theorem prodCmp_lt_trans {α β : Type} {ca : α → α → Ordering}
    {cb : β → β → Ordering} (ha : ∀ x y, ca x y = .eq ↔ x = y)
    (hta : ∀ x y z, ca x y = .lt → ca y z = .lt → ca x z = .lt)
    (htb : ∀ x y z, cb x y = .lt → cb y z = .lt → cb x z = .lt)
    {x y z : α × β} (h1 : prodCmp ca cb x y = .lt)
    (h2 : prodCmp ca cb y z = .lt) : prodCmp ca cb x z = .lt := by
  unfold prodCmp at *
  rcases hab : ca x.1 y.1 with _ | _ | _ <;> rw [hab] at h1 <;>
    simp [Ordering.then] at h1 <;>
    rcases hbc : ca y.1 z.1 with _ | _ | _ <;> rw [hbc] at h2 <;>
    simp [Ordering.then] at h2
  · have h3 := hta _ _ _ hab hbc
    rw [h3]
    simp [Ordering.then]
  · have h3 := (ha y.1 z.1).mp hbc
    rw [← h3, hab]
    simp [Ordering.then]
  · have h3 := (ha x.1 y.1).mp hab
    rw [h3, hbc]
    simp [Ordering.then]
  · have h3 := (ha x.1 y.1).mp hab
    have h4 := (ha y.1 z.1).mp hbc
    rw [h3, h4, (ha z.1 z.1).mpr rfl]
    simp [Ordering.then]
    exact htb _ _ _ h1 h2

/-- Comparison of `(str, str)` pairs. -/
def pairCmp : String × String → String × String → Ordering :=
  prodCmp strCmp strCmp

/-- Comparison of `(str, int)` pairs (used for sorted `Counter` items). -/
def pairCmpN : String × Nat → String × Nat → Ordering :=
  prodCmp strCmp natCmp

/-- Python's `<=` on `(str, str)` pairs. -/
def pairLe (a b : String × String) : Prop := pairCmp a b ≠ .gt

/-- Python's `<=` on `(str, int)` pairs. -/
def pairLeN (a b : String × Nat) : Prop := pairCmpN a b ≠ .gt

/-- Python's `<=` on strings. -/
def strLe (a b : String) : Prop := strCmp a b ≠ .gt

instance : DecidableRel pairLe := fun a b => by unfold pairLe; infer_instance

instance : DecidableRel pairLeN := fun a b => by unfold pairLeN; infer_instance

instance : DecidableRel strLe := fun a b => by unfold strLe; infer_instance

theorem pairCmp_eq_iff (a b : String × String) : pairCmp a b = .eq ↔ a = b :=
  prodCmp_eq_iff strCmp_eq_iff strCmp_eq_iff a b

theorem pairCmp_swap (a b : String × String) : pairCmp a b = (pairCmp b a).swap :=
  prodCmp_swap strCmp_swap strCmp_swap a b

theorem strCmp_lt_trans3 : ∀ x y z : String,
    strCmp x y = .lt → strCmp y z = .lt → strCmp x z = .lt :=
  fun _ _ _ h h' => strCmp_lt_trans h h'

theorem natCmp_lt_trans3 : ∀ x y z : Nat,
    natCmp x y = .lt → natCmp y z = .lt → natCmp x z = .lt :=
  fun _ _ _ h h' => natCmp_lt_trans h h'

theorem pairCmp_lt_trans {a b c : String × String} (h1 : pairCmp a b = .lt)
    (h2 : pairCmp b c = .lt) : pairCmp a c = .lt := by
  unfold pairCmp at h1 h2 ⊢
  exact prodCmp_lt_trans strCmp_eq_iff strCmp_lt_trans3 strCmp_lt_trans3 h1 h2

theorem pairCmpN_eq_iff (a b : String × Nat) : pairCmpN a b = .eq ↔ a = b :=
  prodCmp_eq_iff strCmp_eq_iff natCmp_eq_iff a b

theorem pairCmpN_swap (a b : String × Nat) : pairCmpN a b = (pairCmpN b a).swap :=
  prodCmp_swap strCmp_swap natCmp_swap a b

theorem pairCmpN_lt_trans {a b c : String × Nat} (h1 : pairCmpN a b = .lt)
    (h2 : pairCmpN b c = .lt) : pairCmpN a c = .lt := by
  unfold pairCmpN at h1 h2 ⊢
  exact prodCmp_lt_trans strCmp_eq_iff strCmp_lt_trans3 natCmp_lt_trans3 h1 h2

theorem cmpLe_total {α : Type} {cmp : α → α → Ordering}
    (hswap : ∀ x y, cmp x y = (cmp y x).swap) (a b : α) :
    cmp a b ≠ .gt ∨ cmp b a ≠ .gt := by
  rw [hswap a b]
  rcases cmp b a with _ | _ | _ <;> simp [Ordering.swap]

theorem cmpLe_trans {α : Type} {cmp : α → α → Ordering}
    (heq : ∀ x y, cmp x y = .eq ↔ x = y)
    (hlt : ∀ x y z, cmp x y = .lt → cmp y z = .lt → cmp x z = .lt)
    {a b c : α} (hab : cmp a b ≠ .gt) (hbc : cmp b c ≠ .gt) :
    cmp a c ≠ .gt := by
  rcases h1 : cmp a b with _ | _ | _
  · rcases h2 : cmp b c with _ | _ | _
    · rw [hlt _ _ _ h1 h2]; simp
    · have h3 := (heq b c).mp h2
      rw [← h3, h1]; simp
    · exact absurd h2 hbc
  · have h3 := (heq a b).mp h1
    rw [h3]; exact hbc
  · exact absurd h1 hab

theorem cmpLe_antisymm {α : Type} {cmp : α → α → Ordering}
    (heq : ∀ x y, cmp x y = .eq ↔ x = y)
    (hswap : ∀ x y, cmp x y = (cmp y x).swap)
    {a b : α} (hab : cmp a b ≠ .gt) (hba : cmp b a ≠ .gt) : a = b := by
  rcases h1 : cmp a b with _ | _ | _
  · have := hswap b a
    rw [h1] at this
    simp [Ordering.swap] at this
    exact absurd this hba
  · exact (heq a b).mp h1
  · exact absurd h1 hab

instance : IsTotal (String × String) pairLe :=
  ⟨cmpLe_total pairCmp_swap⟩

instance : IsTrans (String × String) pairLe :=
  ⟨fun _ _ _ => cmpLe_trans pairCmp_eq_iff (fun _ _ _ h h' => pairCmp_lt_trans h h')⟩

instance : IsAntisymm (String × String) pairLe :=
  ⟨fun _ _ => cmpLe_antisymm pairCmp_eq_iff pairCmp_swap⟩

instance : IsTotal (String × Nat) pairLeN :=
  ⟨cmpLe_total pairCmpN_swap⟩

instance : IsTrans (String × Nat) pairLeN :=
  ⟨fun _ _ _ => cmpLe_trans pairCmpN_eq_iff (fun _ _ _ h h' => pairCmpN_lt_trans h h')⟩

instance : IsAntisymm (String × Nat) pairLeN :=
  ⟨fun _ _ => cmpLe_antisymm pairCmpN_eq_iff pairCmpN_swap⟩

instance : IsTotal String strLe :=
  ⟨cmpLe_total strCmp_swap⟩

instance : IsTrans String strLe :=
  ⟨fun _ _ _ => cmpLe_trans strCmp_eq_iff (fun _ _ _ h h' => strCmp_lt_trans h h')⟩

instance : IsAntisymm String strLe :=
  ⟨fun _ _ => cmpLe_antisymm strCmp_eq_iff strCmp_swap⟩

/-- `sorted(d.items())` on a string-valued dict. -/
def sortPairs (l : List (String × String)) : List (String × String) :=
  l.insertionSort pairLe

/-- `sorted(counter.items())`. -/
def sortCounted (l : List (String × Nat)) : List (String × Nat) :=
  l.insertionSort pairLeN

/-- `sorted(...)` on strings. -/
def sortStrings (l : List String) : List String :=
  l.insertionSort strLe

/-! ### The XML element model -/

/-- An XML element: tag, attributes in declaration order (unique keys),
optional raw text content, and the ordered list of child elements. -/
inductive Elem : Type where
  | mk : String → List (String × String) → Option String → List Elem → Elem

instance : Inhabited Elem := ⟨.mk "" [] none []⟩

def Elem.tag : Elem → String
  | .mk t _ _ _ => t

def Elem.attrib : Elem → List (String × String)
  | .mk _ a _ _ => a

def Elem.text : Elem → Option String
  | .mk _ _ x _ => x

def Elem.children : Elem → List Elem
  | .mk _ _ _ cs => cs

@[simp] theorem Elem.tag_mk (t : String) (a : List (String × String))
    (x : Option String) (cs : List Elem) : (Elem.mk t a x cs).tag = t := rfl

@[simp] theorem Elem.attrib_mk (t : String) (a : List (String × String))
    (x : Option String) (cs : List Elem) : (Elem.mk t a x cs).attrib = a := rfl

@[simp] theorem Elem.text_mk (t : String) (a : List (String × String))
    (x : Option String) (cs : List Elem) : (Elem.mk t a x cs).text = x := rfl

@[simp] theorem Elem.children_mk (t : String) (a : List (String × String))
    (x : Option String) (cs : List Elem) : (Elem.mk t a x cs).children = cs := rfl

/-! ### `xml_identity_key` -/

/-- The identity keys returned by `xml_identity_key`, and the keys under
which the merge registers nodes in its `key_map`.  The source returns
Python tuples: `("id", tag, val)`, `("index", tag, val)`, `("value", tag,
val)`, `("attrs", tag, sorted_items)`, and the sentinel `("unique", None)`.
The merge additionally builds keys `("unique", tag)` when registering
appended anonymous nodes, hence `unique_` carries an `Option String`. -/
inductive IdKey : Type where
  | id_ : String → String → IdKey
  | index_ : String → String → IdKey
  | value_ : String → String → IdKey
  | attrs_ : String → List (String × String) → IdKey
  | unique_ : Option String → IdKey
deriving DecidableEq

/-- Whether a key is the `("unique", _)` sentinel (`key[0] == "unique"`). -/
def IdKey.isUnique : IdKey → Bool
  | .unique_ _ => true
  | _ => false

/-- `xml_identity_key(node)`. -/
def xml_identity_key (node : Elem) : IdKey :=
  let a := node.attrib
  match alGet a "id" with
  | some v => .id_ node.tag v
  | none =>
    match alGet a "index" with
    | some v => .index_ node.tag v
    | none =>
      match alGet a "value" with
      | some v => .value_ node.tag v
      | none =>
        if a ≠ [] then .attrs_ node.tag (sortPairs a)
        else .unique_ none

/-! ### `element_signature`

The script builds a canonical tuple `(tag, sorted_attrs, stripped_text,
sorted_counter_items_of_child_signatures)`.  We model the signature as a
canonical string: injective length-prefixed encodings of each component,
with the child signatures aggregated as a counted multiset
(`Counter(child_sigs)`) and then sorted, exactly as the source sorts the
counter's items. -/

/-- Injective encoding of one string component. -/
def encStr (s : String) : String := toString s.length ++ ":" ++ s

/-- Encoding of a sorted attribute item list. -/
def encAttrs (l : List (String × String)) : String :=
  "[" ++ String.intercalate "," (l.map (fun p => encStr p.1 ++ "=" ++ encStr p.2)) ++ "]"

/-- `s.strip()`: drop leading and trailing whitespace. -/
def pyStrip (s : String) : String :=
  String.mk (((s.data.dropWhile Char.isWhitespace).reverse.dropWhile
    Char.isWhitespace).reverse)

/-- `node.text.strip() if node.text and node.text.strip() else None`. -/
def normText : Option String → Option String
  | none => none
  | some s => if pyStrip s = "" then none else some (pyStrip s)

/-- Encoding of the normalized text component. -/
def encText : Option String → String
  | none => "~"
  | some s => "t" ++ encStr s

/-- `Counter(l).items()`: the distinct elements paired with their counts
(the source then sorts these items, so their order here is irrelevant). -/
def countItems (l : List String) : List (String × Nat) :=
  l.dedup.map (fun s => (s, l.count s))

/-- Encoding of the sorted counter-items component. -/
def encCounted (l : List (String × Nat)) : String :=
  "c[" ++ String.intercalate "," (l.map (fun p => encStr p.1 ++ "x" ++ toString p.2)) ++ "]"

mutual

/-- `element_signature(node)`: canonical fingerprint of a subtree — tag,
sorted attributes, stripped text, and the sorted counted multiset of the
children's signatures. -/
def element_signature : Elem → String
  | .mk t a x cs =>
    "(" ++ encStr t ++ "|" ++ encAttrs (sortPairs a) ++ "|" ++ encText (normText x)
      ++ "|" ++ encCounted (sortCounted (countItems (sigList cs))) ++ ")"

/-- Signatures of a list of children, in order. -/
def sigList : List Elem → List String
  | [] => []
  | c :: cs => element_signature c :: sigList cs

end

/-! ### `merge_xml_children_nodes`

The script mutates `target` in place.  We model the evolving child list as
a `List Elem` indexed by position, and the `key_map` dict (key → list of
child references) as an association list from `IdKey` to lists of child
indices, with `setdefault(key, []).append(...)` semantics. -/

/-- The `key_map`: identity key → indices of registered children. -/
abbrev KeyMap : Type := List (IdKey × List Nat)

/-- `key_map.setdefault(key, []).append(i)`. -/
def kmAppend (km : KeyMap) (k : IdKey) (i : Nat) : KeyMap :=
  if (List.any km (fun e => e.1 = k)) then
    List.map (fun e => if e.1 = k then (e.1, e.2 ++ [i]) else e) km
  else
    km ++ [(k, [i])]

/-- `key_map.get(key)`. -/
def kmGet (km : KeyMap) (k : IdKey) : Option (List Nat) :=
  match km with
  | [] => none
  | e :: rest => if e.1 = k then some e.2 else kmGet rest k

/-- Index `target`'s direct children by identity key, in order. -/
def buildKeyMapAux : Nat → List Elem → KeyMap → KeyMap
  | _, [], km => km
  | i, c :: rest, km => buildKeyMapAux (i + 1) rest (kmAppend km (xml_identity_key c) i)

def buildKeyMap (cs : List Elem) : KeyMap := buildKeyMapAux 0 cs []

mutual

/-- `merge_xml_children_nodes(target, source)`: overwrite `target`'s
attributes with `source`'s, then walk `source`'s children: a child with a
non-sentinel identity key is merged recursively into the first registered
target child with the same key, or appended and registered; a sentinel
child is appended unless a node registered under `("unique", child.tag)`
has an equal structural signature. -/
def merge_xml_children_nodes (target source : Elem) : Elem :=
  match source with
  | .mk _ sa _ scs =>
    let newAttrib := sa.foldl (fun acc p => dictSet acc p.1 p.2) target.attrib
    let km := buildKeyMap target.children
    let res := processSrcChildren target.children km scs
    .mk target.tag newAttrib target.text res.1

/-- The `for child in source:` loop, threading the evolving child list and
`key_map`. -/
def processSrcChildren (children : List Elem) (km : KeyMap) :
    List Elem → List Elem × KeyMap
  | [] => (children, km)
  | child :: rest =>
    let key := xml_identity_key child
    if key.isUnique then
      let child_sig := element_signature child
      let existing := (List.filter (fun e => e.1 = IdKey.unique_ (some child.tag)) km).foldl
        (fun acc e => acc ++ e.2) []
      if existing.any (fun i => element_signature (children.getD i default) = child_sig) then
        processSrcChildren children km rest
      else
        processSrcChildren (children ++ [child])
          (kmAppend km (.unique_ (some child.tag)) children.length) rest
    else
      match kmGet km key with
      | some (i :: _) =>
        processSrcChildren
          (children.set i (merge_xml_children_nodes (children.getD i default) child)) km rest
      | _ =>
        processSrcChildren (children ++ [child]) (kmAppend km key children.length) rest

end

/-! ### `merge_catalog_xml`

At the document root the script matches children of the two roots only by
a truthy `id` attribute (`by_id`); the merged root is a fresh element with
root A's tag and attributes. -/

/-- `cid = child.attrib.get("id")` followed by the truthiness test `if cid:`. -/
def truthyId (c : Elem) : Option String :=
  match alGet c.attrib "id" with
  | some s => if s = "" then none else some s
  | none => none

/-- Build `by_id` over root A's children (`by_id[cid] = child`, last wins). -/
def buildByIdAux : Nat → List Elem → List (String × Nat) → List (String × Nat)
  | _, [], m => m
  | i, c :: rest, m =>
    buildByIdAux (i + 1) rest
      (match truthyId c with
       | some s => dictSet m s i
       | none => m)

def buildById (cs : List Elem) : List (String × Nat) := buildByIdAux 0 cs []

/-- The `for child_b in root_b:` loop of `merge_catalog_xml`: a child whose
`id` is in `by_id` is merged into that registered child; every other child
is appended. -/
def catalogLoop (byId : List (String × Nat)) (children : List Elem) :
    List Elem → List Elem
  | [] => children
  | c :: rest =>
    match alGet c.attrib "id" with
    | some s =>
      match alGet byId s with
      | some i =>
        catalogLoop byId
          (children.set i (merge_xml_children_nodes (children.getD i default) c)) rest
      | none => catalogLoop byId (children ++ [c]) rest
    | none => catalogLoop byId (children ++ [c]) rest

/-- The both-parseable path of `merge_catalog_xml`: the merged document is
`ET.Element(root_a.tag, root_a.attrib)` (fresh element, so no text), filled
with root A's children and then root B's children merged through `by_id`. -/
def merge_catalog (a b : Elem) : Elem :=
  .mk a.tag a.attrib none (catalogLoop (buildById a.children) a.children b.children)

/-! ### File-level `merge_catalog_xml` -/

/-- An input file on disk: its raw bytes and the result of attempting to
parse it as XML (`None` for a missing parse is represented by the slot
being `none`; a present but unparseable file has `parsedXml = none`). -/
structure SrcFile where
  raw : String
  parsedXml : Option Elem

/-- The state of a written XML file: either a verbatim copy of an input
file, or a document serialized from a merged tree (which parses back to
that tree). -/
inductive XmlDoc : Type where
  | file : SrcFile → XmlDoc
  | tree : Elem → XmlDoc

/-- `safe_parse`: a missing file and an unparseable file both yield `None`. -/
def safe_parse : Option XmlDoc → Option Elem
  | none => none
  | some (.file f) => f.parsedXml
  | some (.tree e) => some e

/-- `merge_catalog_xml(file_a, file_b, out_file)` as a function from the two
input slots to the written output: if exactly one side parses, that side's
file is copied verbatim; if neither parses, nothing is written; otherwise
the merged tree is written. -/
def merge_catalog_xml (a b : Option XmlDoc) : Option XmlDoc :=
  match safe_parse a, safe_parse b with
  | none, some _ => b
  | some _, none => a
  | none, none => none
  | some ra, some rb => some (.tree (merge_catalog ra rb))

/-! ### `read_ini` -/

/-- `.splitlines()` (we keep a trailing empty line for a trailing newline;
the parser skips blank lines, so this is invisible to `read_ini`). -/
def splitLinesAux : List Char → List Char → List String
  | acc, [] => [String.mk acc.reverse]
  | acc, c :: rest =>
    if c = '\n' then String.mk acc.reverse :: splitLinesAux [] rest
    else splitLinesAux (c :: acc) rest

def splitLines (s : String) : List String := splitLinesAux [] s.data

/-- `line.startswith(c)` for a single character. -/
def startsWithChar (s : String) (c : Char) : Bool :=
  match s.data with
  | [] => false
  | c' :: _ => c' = c

/-- `line.endswith(c)` for a single character. -/
def endsWithChar (s : String) (c : Char) : Bool :=
  match s.data.getLast? with
  | some c' => c' = c
  | none => false

/-- `line[1:-1]`. -/
def innerSlice (s : String) : String := String.mk ((s.data.drop 1).dropLast)

/-- `line.split("=", 1)` when `"=" in line`: the text before the first `=`
and everything after it. -/
def splitEqAux : List Char → Option (String × String)
  | [] => none
  | c :: rest =>
    if c = '=' then some ("", String.mk rest)
    else
      match splitEqAux rest with
      | some (k, v) => some (String.mk (c :: k.data), v)
      | none => none

def splitEq (s : String) : Option (String × String) := splitEqAux s.data

/-- A parsed section table: section name → (key → value), in insertion
order, plus the reserved `__root__` pseudo-section. -/
abbrev IniTable : Type := List (String × List (String × String))

/-- Lookup of `table[sec][k]`. -/
def alGet2 (t : IniTable) (sec k : String) : Option String :=
  match alGet t sec with
  | some kv => alGet kv k
  | none => none

/-- `data.setdefault(current, {})`. -/
def alSetdefault (t : IniTable) (sec : String) : IniTable :=
  match alGet t sec with
  | some _ => t
  | none => t ++ [(sec, [])]

/-- `data.setdefault(current, {})[k] = v`. -/
def alSet2 (t : IniTable) (sec k v : String) : IniTable :=
  match alGet t sec with
  | some _ => List.map (fun e => if e.1 = sec then (e.1, dictSet e.2 k v) else e) t
  | none => t ++ [(sec, dictSet [] k v)]

/-- One iteration of `read_ini`'s line loop, on state (table, current
section). -/
def read_ini_line (st : IniTable × String) (raw : String) : IniTable × String :=
  let line := pyStrip raw
  if line = "" || startsWithChar line '#' || startsWithChar line ';' then st
  else if startsWithChar line '[' && endsWithChar line ']' then
    let current := pyStrip (innerSlice line)
    (alSetdefault st.1 current, current)
  else
    match splitEq line with
    | some (k, v) => (alSet2 st.1 st.2 (pyStrip k) (pyStrip v), st.2)
    | none => st

/-- `read_ini(path)`: a missing file gives the empty table; otherwise the
table starts with an empty `__root__` section and the lines are folded. -/
def read_ini (file : Option String) : IniTable :=
  match file with
  | none => []
  | some content =>
    ((splitLines content).foldl read_ini_line ([("__root__", [])], "__root__")).1

/-! ### `merge_dicts` -/

/-- The conflict record printed by `merge_dicts`:
`⚠️ INI Merger Conflict: [{section}] {k} → using {name} value ({v})`. -/
structure Conflict where
  sec : String
  key : String
  tier : String
  value : String
deriving DecidableEq

/-- One step of the inner `for k, v in kv.items():` loop of `merge_dicts`:
warn when the key exists with a different value, then overwrite. -/
def iniSectionStep (sec name : String) (acc : List (String × String) × List Conflict)
    (p : String × String) : List (String × String) × List Conflict :=
  let confs :=
    match alGet acc.1 p.1 with
    | some w => if w ≠ p.2 then acc.2 ++ [⟨sec, p.1, name, p.2⟩] else acc.2
    | none => acc.2
  (dictSet acc.1 p.1 p.2, confs)

/-- The inner loop of `merge_dicts`, merging a high-priority section into
an existing low-priority section. -/
def merge_into_section (lowsec : List (String × String)) (sec name : String)
    (kv : List (String × String)) : List (String × String) × List Conflict :=
  kv.foldl (iniSectionStep sec name) (lowsec, [])

/-- One step of the `for section, kv in high.items():` loop of
`merge_dicts`: a new section is copied in whole, an existing one merged. -/
def iniTableStep (name : String) (acc : IniTable × List Conflict)
    (e : String × List (String × String)) : IniTable × List Conflict :=
  match alGet acc.1 e.1 with
  | none => (acc.1 ++ [(e.1, e.2)], acc.2)
  | some lowsec =>
    let r := merge_into_section lowsec e.1 name e.2
    (List.map (fun q => if q.1 = e.1 then (q.1, r.1) else q) acc.1, acc.2 ++ r.2)

/-- `merge_dicts(low, high, name)`: merge the high-priority table into the
low-priority one, collecting the conflicts it prints. -/
def merge_dicts (low high : IniTable) (name : String) : IniTable × List Conflict :=
  high.foldl (iniTableStep name) (low, [])

/-! ### Serialization and `merge_ini_files` -/

/-- The `f.write(f"{k} = {v}\n")` loop over `sorted(items)`. -/
def fmtItems (kv : List (String × String)) : String :=
  (sortPairs kv).foldl (fun acc p => acc ++ p.1 ++ " = " ++ p.2 ++ "\n") ""

/-- The serialization loop of `merge_ini_files`: root pseudo-section first
(if present and non-empty), then the named sections in sorted order. -/
def write_ini (merged : IniTable) : String :=
  let rootPart :=
    match alGet merged "__root__" with
    | some kv => if kv ≠ [] then fmtItems kv ++ "\n" else ""
    | none => ""
  let sections := sortStrings ((alKeys merged).filter (fun s => s ≠ "__root__"))
  rootPart ++ sections.foldl
    (fun acc s => acc ++ "[" ++ s ++ "]\n" ++ fmtItems ((alGet merged s).getD []) ++ "\n") ""

/-- A written output file: a verbatim copy of one input file, the
serialization of a merged XML tree, or serialized INI text. -/
inductive OutFile : Type where
  | bytes : SrcFile → OutFile
  | xmlTree : Elem → OutFile
  | text : String → OutFile

/-- `merge_ini_files(base, patch, extra, out_file)`: when neither patch nor
extra exists the base file is copied verbatim; otherwise the three parsed
tables are chained through `merge_dicts` and serialized. -/
def merge_ini_files (base patch extra : Option SrcFile) :
    Option OutFile × List Conflict :=
  if patch.isNone && extra.isNone then
    (base.map .bytes, [])
  else
    let base_ini := read_ini (base.map (·.raw))
    let patch_ini := read_ini (patch.map (·.raw))
    let extra_ini := read_ini (extra.map (·.raw))
    let m1 := merge_dicts base_ini patch_ini "patch"
    let m2 := merge_dicts m1.1 extra_ini "extra"
    (some (.text (write_ini m2.1)), m1.2 ++ m2.2)

/-! ### `merge_file_triple` -/

/-- One `if patch.exists(): merge_catalog_xml(dest, patch, dest)` step: a
missing input leaves `dest` untouched, and so does a merge call that writes
nothing (both sides unparseable). -/
def xmlStep (dest : Option XmlDoc) (inp : Option SrcFile) : Option XmlDoc :=
  match inp with
  | none => dest
  | some f =>
    match merge_catalog_xml dest (some (.file f)) with
    | some d => some d
    | none => dest

def docToOut : XmlDoc → OutFile
  | .file f => .bytes f
  | .tree e => .xmlTree e

/-- `merge_file_triple(base, patch, extra, dest)`: route on the path's
extension; `.xml` chains `merge_catalog_xml` over (base copy, patch,
extra); `.txt`/`.ini` go through `merge_ini_files`; everything else copies
the highest-priority existing file. -/
def merge_file_triple (ext : String) (base patch extra : Option SrcFile) :
    Option OutFile :=
  if base.isNone && patch.isNone && extra.isNone then none
  else if ext = ".xml" then
    let dest0 : Option XmlDoc := base.map .file
    let dest1 := xmlStep dest0 patch
    let dest2 := xmlStep dest1 extra
    dest2.map docToOut
  else if ext = ".txt" ∨ ext = ".ini" then
    (merge_ini_files base patch extra).1
  else
    match extra with
    | some f => some (.bytes f)
    | none =>
      match patch with
      | some f => some (.bytes f)
      | none => base.map .bytes

/-! ## Lemmas about the dict model -/

theorem alGet_eq_none_iff {α : Type} (l : List (String × α)) (k : String) :
    alGet l k = none ↔ k ∉ alKeys l := by
  induction l with
  | nil => simp [alGet, alKeys]
  | cons p rest ih =>
    by_cases h : p.1 = k
    · simp [alGet, alKeys, h]
    · simp [alGet, alKeys, h, ih, Ne.symm h]

theorem alGet_mem {α : Type} {l : List (String × α)} {k : String} {v : α}
    (h : alGet l k = some v) : (k, v) ∈ l := by
  induction l with
  | nil => simp [alGet] at h
  | cons p rest ih =>
    by_cases hp : p.1 = k
    · have h2 : some p.2 = some v := by
        rw [← h]; simp [alGet, hp]
      cases h2
      have he : (k, p.2) = p := by rw [← hp]
      rw [he]
      exact List.mem_cons_self p rest
    · have h2 : alGet rest k = some v := by
        rw [← h]; simp [alGet, hp]
      exact List.mem_cons_of_mem p (ih h2)

theorem mem_alGet {α : Type} {l : List (String × α)} {k : String} {v : α}
    (hnd : (alKeys l).Nodup) (h : (k, v) ∈ l) : alGet l k = some v := by
  induction l with
  | nil => simp at h
  | cons p rest ih =>
    rcases List.mem_cons.mp h with h1 | h1
    · rw [← h1]
      simp [alGet]
    · have hk : k ∈ alKeys rest := List.mem_map_of_mem (·.1) h1
      have hp : p.1 ≠ k := by
        intro he
        have : p.1 ∉ alKeys rest := (List.nodup_cons.mp hnd).1
        exact this (he ▸ hk)
      simp [alGet, hp]
      exact ih (List.nodup_cons.mp hnd).2 h1

theorem alGet_some_of_mem_keys {α : Type} {l : List (String × α)} {k : String}
    (h : k ∈ alKeys l) : ∃ v, alGet l k = some v := by
  rcases ho : alGet l k with _ | v
  · exact absurd ((alGet_eq_none_iff l k).mp ho) (not_not.mpr h)
  · exact ⟨v, rfl⟩

theorem alGet_mapUpdate_self {α : Type} (l : List (String × α)) (k : String) (v : α)
    (h : k ∈ alKeys l) :
    alGet (List.map (fun p => if p.1 = k then (k, v) else p) l) k = some v := by
  induction l with
  | nil => simp [alKeys] at h
  | cons p rest ih =>
    simp only [List.map_cons]
    by_cases hp : p.1 = k
    · rw [if_pos hp]
      simp [alGet]
    · rw [if_neg hp]
      have h2 : k ∈ alKeys rest := by
        rcases List.mem_map.mp h with ⟨q, hq, hqk⟩
        rcases List.mem_cons.mp hq with h1 | h1
        · exact absurd (h1 ▸ hqk) hp
        · exact List.mem_map.mpr ⟨q, h1, hqk⟩
      rw [show alGet (p :: List.map (fun p => if p.1 = k then (k, v) else p) rest) k
            = alGet (List.map (fun p => if p.1 = k then (k, v) else p) rest) k by
          simp [alGet, hp]]
      exact ih h2

theorem alGet_mapUpdate_ne {α : Type} (l : List (String × α)) (k k' : String) (v : α)
    (h : k' ≠ k) :
    alGet (List.map (fun p => if p.1 = k then (k, v) else p) l) k' = alGet l k' := by
  induction l with
  | nil => rfl
  | cons p rest ih =>
    simp only [List.map_cons]
    by_cases hp : p.1 = k
    · rw [if_pos hp]
      have hpk' : p.1 ≠ k' := by rw [hp]; exact Ne.symm h
      rw [show alGet ((k, v) :: List.map (fun p => if p.1 = k then (k, v) else p) rest) k'
            = alGet (List.map (fun p => if p.1 = k then (k, v) else p) rest) k' by
          simp [alGet, Ne.symm h]]
      rw [show alGet (p :: rest) k' = alGet rest k' by simp [alGet, hpk']]
      exact ih
    · rw [if_neg hp]
      by_cases hpk' : p.1 = k'
      · simp [alGet, hpk']
      · rw [show alGet (p :: List.map (fun p => if p.1 = k then (k, v) else p) rest) k'
              = alGet (List.map (fun p => if p.1 = k then (k, v) else p) rest) k' by
            simp [alGet, hpk']]
        rw [show alGet (p :: rest) k' = alGet rest k' by simp [alGet, hpk']]
        exact ih

theorem alGet_append_last {α : Type} (l : List (String × α)) (k : String) (v : α)
    (h : ∀ p ∈ l, p.1 ≠ k) : alGet (l ++ [(k, v)]) k = some v := by
  induction l with
  | nil => simp [alGet]
  | cons p rest ih =>
    have hp := h p (List.mem_cons_self p rest)
    simp only [List.cons_append]
    rw [show alGet (p :: (rest ++ [(k, v)])) k = alGet (rest ++ [(k, v)]) k by
      simp [alGet, hp]]
    exact ih (fun q hq => h q (List.mem_cons_of_mem p hq))

theorem alGet_append_single_ne {α : Type} (l : List (String × α)) (k k' : String) (v : α)
    (h : k' ≠ k) : alGet (l ++ [(k, v)]) k' = alGet l k' := by
  induction l with
  | nil => simp [alGet, Ne.symm h]
  | cons p rest ih =>
    by_cases hp : p.1 = k'
    · simp [alGet, hp]
    · simp only [List.cons_append]
      rw [show alGet (p :: (rest ++ [(k, v)])) k' = alGet (rest ++ [(k, v)]) k' by
            simp [alGet, hp],
          show alGet (p :: rest) k' = alGet rest k' by simp [alGet, hp]]
      exact ih

theorem alGet_dictSet_self {α : Type} (l : List (String × α)) (k : String) (v : α) :
    alGet (dictSet l k v) k = some v := by
  unfold dictSet
  by_cases hc : l.any (fun p => p.1 = k)
  · rw [if_pos hc]
    apply alGet_mapUpdate_self
    simp only [List.any_eq_true, decide_eq_true_eq] at hc
    rcases hc with ⟨q, hq, hqk⟩
    exact List.mem_map.mpr ⟨q, hq, hqk⟩
  · rw [if_neg hc]
    simp only [List.any_eq_true, decide_eq_true_eq] at hc
    push_neg at hc
    exact alGet_append_last l k v hc

theorem alGet_dictSet_ne {α : Type} (l : List (String × α)) (k k' : String) (v : α)
    (h : k' ≠ k) : alGet (dictSet l k v) k' = alGet l k' := by
  unfold dictSet
  by_cases hc : l.any (fun p => p.1 = k)
  · rw [if_pos hc]
    exact alGet_mapUpdate_ne l k k' v h
  · rw [if_neg hc]
    exact alGet_append_single_ne l k k' v h

theorem alKeys_mapUpdate {α : Type} (l : List (String × α)) (k : String) (v : α) :
    alKeys (List.map (fun p => if p.1 = k then (k, v) else p) l) = alKeys l := by
  unfold alKeys
  rw [List.map_map]
  apply List.map_congr_left
  intro p _
  by_cases hp : p.1 = k
  · simp [hp]
  · simp [hp]

theorem alKeys_mem_dictSet {α : Type} (l : List (String × α)) (k k' : String) (v : α) :
    k' ∈ alKeys (dictSet l k v) ↔ k' ∈ alKeys l ∨ k' = k := by
  unfold dictSet
  by_cases hc : l.any (fun p => p.1 = k)
  · rw [if_pos hc, alKeys_mapUpdate]
    simp only [List.any_eq_true, decide_eq_true_eq] at hc
    rcases hc with ⟨q, hq, hqk⟩
    constructor
    · exact Or.inl
    · intro h
      rcases h with h | h
      · exact h
      · exact h ▸ hqk ▸ List.mem_map_of_mem (·.1) hq
  · rw [if_neg hc]
    unfold alKeys
    rw [List.map_append]
    simp

theorem alKeys_dictSet_nodup {α : Type} (l : List (String × α)) (k : String) (v : α)
    (hnd : (alKeys l).Nodup) : (alKeys (dictSet l k v)).Nodup := by
  unfold dictSet
  by_cases hc : l.any (fun p => p.1 = k)
  · rw [if_pos hc, alKeys_mapUpdate]
    exact hnd
  · rw [if_neg hc]
    simp only [List.any_eq_true, decide_eq_true_eq] at hc
    push_neg at hc
    unfold alKeys
    rw [List.map_append]
    simp only [List.map_cons, List.map_nil]
    rw [List.nodup_append]
    refine ⟨hnd, List.nodup_singleton k, ?_⟩
    intro x hx hx2
    rcases List.mem_map.mp hx with ⟨q, hq, hqk⟩
    simp at hx2
    exact hc q hq (hx2 ▸ hqk)

theorem dictSet_self {α : Type} {l : List (String × α)} {k : String} {v : α}
    (hnd : (alKeys l).Nodup) (h : (k, v) ∈ l) : dictSet l k v = l := by
  unfold dictSet
  rw [if_pos (List.any_eq_true.mpr ⟨(k, v), h, by simp⟩)]
  induction l with
  | nil => simp at h
  | cons p rest ih =>
    rcases List.mem_cons.mp h with h1 | h1
    · simp only [List.map_cons]
      rw [show (if p.1 = k then (k, v) else p) = p by rw [← h1]; simp]
      congr 1
      have hres : ∀ q ∈ rest, (fun q => if q.1 = k then (k, v) else q) q = id q := by
        intro q hq
        have hqk : q.1 ≠ k := by
          intro he
          have hk : k ∈ alKeys rest := by
            rw [← he]
            exact List.mem_map_of_mem (·.1) hq
          have hnk : p.1 ∉ alKeys rest := (List.nodup_cons.mp hnd).1
          rw [← h1] at hnk
          exact hnk hk
        simp [hqk]
      exact (List.map_congr_left hres).trans (List.map_id rest)
    · have hp : p.1 ≠ k := by
        intro he
        have hk : k ∈ alKeys rest := List.mem_map_of_mem (·.1) h1
        have hnk : p.1 ∉ alKeys rest := (List.nodup_cons.mp hnd).1
        rw [he] at hnk
        exact hnk hk
      simp only [List.map_cons, if_neg hp]
      congr 1
      exact ih (List.nodup_cons.mp hnd).2 h1

/-- The attribute-overwrite loop `for k, v in src.items(): dst[k] = v`. -/
def dictFold {α : Type} (t s : List (String × α)) : List (String × α) :=
  s.foldl (fun acc p => dictSet acc p.1 p.2) t

theorem dictFold_lookup {α : Type} (s t : List (String × α)) (k : String)
    (hs : (alKeys s).Nodup) :
    alGet (dictFold t s) k = (alGet s k).or (alGet t k) := by
  induction s generalizing t with
  | nil => simp [dictFold, alGet]
  | cons p rest ih =>
    have hstep : dictFold t (p :: rest) = dictFold (dictSet t p.1 p.2) rest := rfl
    rw [hstep, ih _ (List.nodup_cons.mp hs).2]
    by_cases hk : p.1 = k
    · have hknotin : k ∉ alKeys rest := hk ▸ (List.nodup_cons.mp hs).1
      rw [(alGet_eq_none_iff rest k).mpr hknotin]
      rw [show alGet (p :: rest) k = some p.2 by simp [alGet, hk]]
      rw [show alGet (dictSet t p.1 p.2) k = some p.2 by
        rw [← hk]; exact alGet_dictSet_self t p.1 p.2]
      simp
    · rw [show alGet (p :: rest) k = alGet rest k by simp [alGet, hk]]
      rw [alGet_dictSet_ne t p.1 k p.2 (Ne.symm hk)]

theorem dictFold_self {α : Type} (a s : List (String × α))
    (hnd : (alKeys a).Nodup) (hsub : ∀ p ∈ s, p ∈ a) : dictFold a s = a := by
  induction s with
  | nil => rfl
  | cons p rest ih =>
    have hstep : dictFold a (p :: rest) = rest.foldl (fun acc q => dictSet acc q.1 q.2)
        (dictSet a p.1 p.2) := rfl
    rw [hstep, dictSet_self hnd (hsub p (List.mem_cons_self p rest))]
    exact ih (fun q hq => hsub q (List.mem_cons_of_mem p hq))

/-! ## Canonicality of `sorted(...)` -/

theorem insertionSort_perm_eq {α : Type} (r : α → α → Prop) [DecidableRel r]
    [IsTotal α r] [IsTrans α r] [IsAntisymm α r] {l₁ l₂ : List α}
    (h : List.Perm l₁ l₂) : l₁.insertionSort r = l₂.insertionSort r :=
  List.eq_of_perm_of_sorted
    ((List.perm_insertionSort r l₁).trans (h.trans (List.perm_insertionSort r l₂).symm))
    (List.sorted_insertionSort r l₁) (List.sorted_insertionSort r l₂)

theorem sortPairs_perm_eq {l₁ l₂ : List (String × String)} (h : List.Perm l₁ l₂) :
    sortPairs l₁ = sortPairs l₂ :=
  insertionSort_perm_eq pairLe h

theorem sortCounted_perm_eq {l₁ l₂ : List (String × Nat)} (h : List.Perm l₁ l₂) :
    sortCounted l₁ = sortCounted l₂ :=
  insertionSort_perm_eq pairLeN h

theorem sortStrings_perm_eq {l₁ l₂ : List String} (h : List.Perm l₁ l₂) :
    sortStrings l₁ = sortStrings l₂ :=
  insertionSort_perm_eq strLe h

/-- Lookup in a dict is permutation invariant (dicts have unique keys). -/
theorem alGet_perm {α : Type} [DecidableEq α] {l₁ l₂ : List (String × α)}
    (hnd : (alKeys l₁).Nodup) (h : List.Perm l₁ l₂) (k : String) :
    alGet l₁ k = alGet l₂ k := by
  have hnd₂ : (alKeys l₂).Nodup := by
    unfold alKeys at hnd ⊢
    exact ((h.map (fun p => p.1)).nodup_iff).mp hnd
  rcases ho : alGet l₁ k with _ | v
  · rcases ho₂ : alGet l₂ k with _ | v₂
    · rfl
    · have hm : (k, v₂) ∈ l₁ := h.mem_iff.mpr (alGet_mem ho₂)
      rw [mem_alGet hnd hm] at ho
      cases ho
  · exact (mem_alGet hnd₂ (h.mem_iff.mp (alGet_mem ho))).symm

/-! ## Canonicality of `element_signature` -/

theorem countItems_perm {l₁ l₂ : List String} (h : List.Perm l₁ l₂) :
    List.Perm (countItems l₁) (countItems l₂) := by
  unfold countItems
  have h1 : List.map (fun s => (s, l₁.count s)) l₁.dedup
      = List.map (fun s => (s, l₂.count s)) l₁.dedup :=
    List.map_congr_left (fun s _ => by rw [h.count_eq s])
  rw [h1]
  exact (h.dedup).map _

theorem sigList_eq_map : ∀ cs : List Elem, sigList cs = cs.map element_signature
  | [] => rfl
  | c :: cs => by rw [sigList, List.map_cons, sigList_eq_map cs]

/-- C4, part 1: the signature depends only on the tag, the attribute set
(as a set), the normalized text, and the multiset of child signatures. -/
theorem element_signature_congr {t₁ a₁ x₁ cs₁ t₂ a₂ x₂ cs₂}
    (ht : t₁ = t₂) (ha : List.Perm a₁ a₂) (hx : normText x₁ = normText x₂)
    (hcs : List.Perm (sigList cs₁) (sigList cs₂)) :
    element_signature (.mk t₁ a₁ x₁ cs₁) = element_signature (.mk t₂ a₂ x₂ cs₂) := by
  subst ht
  simp only [element_signature]
  rw [sortPairs_perm_eq ha, hx, sortCounted_perm_eq (countItems_perm hcs)]

/-- C4: structural-signature canonicalization — nodes equal in tag,
attribute set, trimmed text (empty-after-trim treated as absent) and in
the multiset of child signatures get equal signatures; in particular,
reordering a node's children never changes its signature. -/
theorem element_signature_canonical :
    (∀ t₁ a₁ x₁ cs₁ t₂ a₂ x₂ cs₂, t₁ = t₂ → List.Perm a₁ a₂ →
      normText x₁ = normText x₂ → List.Perm (sigList cs₁) (sigList cs₂) →
      element_signature (.mk t₁ a₁ x₁ cs₁) = element_signature (.mk t₂ a₂ x₂ cs₂))
    ∧ (∀ t a x cs₁ cs₂, List.Perm cs₁ cs₂ →
      element_signature (.mk t a x cs₁) = element_signature (.mk t a x cs₂)) := by
  constructor
  · intro t₁ a₁ x₁ cs₁ t₂ a₂ x₂ cs₂ ht ha hx hcs
    exact element_signature_congr ht ha hx hcs
  · intro t a x cs₁ cs₂ h
    refine element_signature_congr rfl (List.Perm.refl a) rfl ?_
    rw [sigList_eq_map, sigList_eq_map]
    exact h.map element_signature

/-- Witness for C4 at a concrete input: reordered attributes and children
and differently-padded text produce the same signature. -/
theorem element_signature_canonical_witness :
    element_signature (.mk "a" [("q", "1"), ("p", "2")] (some " 5 ")
        [.mk "b" [] none [], .mk "c" [] none []])
      = element_signature (.mk "a" [("p", "2"), ("q", "1")] (some "5")
        [.mk "c" [] none [], .mk "b" [] none []]) := by
  have h1 := element_signature_canonical.1 "a" [("q", "1"), ("p", "2")] (some " 5 ")
    [.mk "b" [] none [], .mk "c" [] none []] "a" [("p", "2"), ("q", "1")] (some "5")
    [.mk "b" [] none [], .mk "c" [] none []] rfl (List.Perm.swap _ _ _) (by decide)
    (List.Perm.refl _)
  have h2 := element_signature_canonical.2 "a" [("p", "2"), ("q", "1")] (some "5")
    [.mk "b" [] none [], .mk "c" [] none []] [.mk "c" [] none [], .mk "b" [] none []]
    (List.Perm.swap _ _ _)
  exact h1.trans h2

/-! ## C5: `xml_identity_key` precedence and order independence -/

/-- C5: the identity key follows the fixed precedence id, index, value,
full sorted attribute set, sentinel — and is invariant under reordering
of the attribute dict. -/
theorem xml_identity_key_spec :
    (∀ n : Elem,
      (∀ v, alGet n.attrib "id" = some v → xml_identity_key n = .id_ n.tag v)
      ∧ (alGet n.attrib "id" = none → ∀ v, alGet n.attrib "index" = some v →
          xml_identity_key n = .index_ n.tag v)
      ∧ (alGet n.attrib "id" = none → alGet n.attrib "index" = none →
          ∀ v, alGet n.attrib "value" = some v → xml_identity_key n = .value_ n.tag v)
      ∧ (alGet n.attrib "id" = none → alGet n.attrib "index" = none →
          alGet n.attrib "value" = none → n.attrib ≠ [] →
          xml_identity_key n = .attrs_ n.tag (sortPairs n.attrib))
      ∧ (n.attrib = [] → xml_identity_key n = .unique_ none))
    ∧ (∀ t x₁ x₂ cs₁ cs₂ a₁ a₂, (alKeys a₁).Nodup → List.Perm a₁ a₂ →
      xml_identity_key (.mk t a₁ x₁ cs₁) = xml_identity_key (.mk t a₂ x₂ cs₂)) := by
  constructor
  · intro n
    obtain ⟨t, a, x, cs⟩ := n
    simp only [Elem.attrib, Elem.tag]
    refine ⟨?_, ?_, ?_, ?_, ?_⟩
    · intro v hv
      unfold xml_identity_key
      simp only [Elem.attrib, Elem.tag]
      rw [hv]
    · intro h1 v hv
      unfold xml_identity_key
      simp only [Elem.attrib, Elem.tag]
      rw [h1, hv]
    · intro h1 h2 v hv
      unfold xml_identity_key
      simp only [Elem.attrib, Elem.tag]
      rw [h1, h2, hv]
    · intro h1 h2 h3 hne
      unfold xml_identity_key
      simp only [Elem.attrib, Elem.tag]
      rw [h1, h2, h3, if_pos hne]
    · intro h
      subst h
      rfl
  · intro t x₁ x₂ cs₁ cs₂ a₁ a₂ hnd hperm
    by_cases hn : a₁ = []
    · have hn₂ : a₂ = [] := by
        rw [hn] at hperm
        exact hperm.symm.eq_nil
      rw [hn, hn₂]
      rfl
    · have hn₂ : a₂ ≠ [] := by
        intro he
        rw [he] at hperm
        exact hn hperm.eq_nil
      unfold xml_identity_key
      simp only [Elem.attrib, Elem.tag]
      rw [alGet_perm hnd hperm "id", alGet_perm hnd hperm "index",
          alGet_perm hnd hperm "value", sortPairs_perm_eq hperm,
          if_pos hn, if_pos hn₂]

/-! ## C8: unparseable / missing-side fallback -/

/-- C8: if both sides of `merge_catalog_xml` are missing or unparseable no
output is produced; if exactly one side parses, that side's file becomes
the output verbatim (the very `.file` slot, no merged tree); the function
is total, so no exception propagates. -/
theorem unparseable_fallback (a b : Option XmlDoc) :
    (safe_parse a = none → safe_parse b = none → merge_catalog_xml a b = none)
    ∧ (∀ f : SrcFile, b = some (.file f) → f.parsedXml ≠ none → safe_parse a = none →
        merge_catalog_xml a b = some (.file f))
    ∧ (∀ f : SrcFile, a = some (.file f) → f.parsedXml ≠ none → safe_parse b = none →
        merge_catalog_xml a b = some (.file f)) := by
  refine ⟨?_, ?_, ?_⟩
  · intro ha hb
    unfold merge_catalog_xml
    rw [ha, hb]
  · intro f hb hf ha
    unfold merge_catalog_xml
    rw [ha, hb]
    simp only [safe_parse]
    rcases hp : f.parsedXml with _ | e
    · exact absurd hp hf
    · rfl
  · intro f ha hf hb
    unfold merge_catalog_xml
    rw [ha, hb]
    simp only [safe_parse]
    rcases hp : f.parsedXml with _ | e
    · exact absurd hp hf
    · rfl

/-- Witness for C8 at concrete inputs. -/
theorem unparseable_fallback_witness :
    merge_catalog_xml none none = none
    ∧ merge_catalog_xml none (some (.file ⟨"<a/>", some (.mk "a" [] none [])⟩))
        = some (.file ⟨"<a/>", some (.mk "a" [] none [])⟩)
    ∧ merge_catalog_xml (some (.file ⟨"<a/>", some (.mk "a" [] none [])⟩))
        (some (.file ⟨"bad", none⟩)) = some (.file ⟨"<a/>", some (.mk "a" [] none [])⟩) :=
  ⟨(unparseable_fallback none none).1 rfl rfl,
   (unparseable_fallback none _).2.1 _ rfl (by simp) rfl,
   (unparseable_fallback _ _).2.2 _ rfl (by simp) rfl⟩

/-! ## C3: the anonymous-dedup key mismatch -/

/-- C3: the identity-less `<effect><amount>5</amount></effect>` child gets
the sentinel key `("unique", None)`, but the merge's dedup scan looks for
pool keys of the form `("unique", child.tag)`, which `xml_identity_key`
never produces for the target's pre-existing children — so restating the
identical subtree under a matched node (and likewise at the document root,
where no signature dedup exists at all) duplicates it instead of being
dropped. -/
theorem anonymous_dedup_code_bug :
    xml_identity_key (Elem.mk "effect" [] none [.mk "amount" [] (some "5") []])
      = .unique_ none
    ∧ (merge_xml_children_nodes
        (.mk "x" [("id", "1")] none [.mk "effect" [] none [.mk "amount" [] (some "5") []]])
        (.mk "x" [("id", "1")] none
          [.mk "effect" [] none [.mk "amount" [] (some "5") []]])).children
      = [.mk "effect" [] none [.mk "amount" [] (some "5") []],
         .mk "effect" [] none [.mk "amount" [] (some "5") []]]
    ∧ (merge_catalog
        (.mk "Catalog" [] none [.mk "effect" [] none [.mk "amount" [] (some "5") []]])
        (.mk "Catalog" [] none
          [.mk "effect" [] none [.mk "amount" [] (some "5") []]])).children
      = [.mk "effect" [] none [.mk "amount" [] (some "5") []],
         .mk "effect" [] none [.mk "amount" [] (some "5") []]] :=
  ⟨rfl, rfl, rfl⟩

/-! ## C2: the idempotence counterexample -/

/-- C2, counterexample: merging `<Catalog><a/></Catalog>` as all three
tiers triples the id-less root child instead of returning the tree. -/
theorem idempotence_counterexample :
    (merge_catalog (merge_catalog (.mk "Catalog" [] none [.mk "a" [] none []])
        (.mk "Catalog" [] none [.mk "a" [] none []]))
      (.mk "Catalog" [] none [.mk "a" [] none []])).children.length = 3
    ∧ (Elem.mk "Catalog" [] none [.mk "a" [] none []]).children.length = 1
    ∧ merge_catalog (merge_catalog (.mk "Catalog" [] none [.mk "a" [] none []])
        (.mk "Catalog" [] none [.mk "a" [] none []]))
      (.mk "Catalog" [] none [.mk "a" [] none []])
      ≠ .mk "Catalog" [] none [.mk "a" [] none []] := by
  refine ⟨rfl, rfl, ?_⟩
  intro h
  have h3 : (merge_catalog (merge_catalog (.mk "Catalog" [] none [.mk "a" [] none []])
      (.mk "Catalog" [] none [.mk "a" [] none []]))
    (.mk "Catalog" [] none [.mk "a" [] none []])).children.length = 3 := rfl
  rw [h] at h3
  simp at h3

/-! ## Fold facts about `merge_dicts` -/

/-- The table component of one `iniTableStep`. -/
def tableStep (acc : IniTable) (e : String × List (String × String)) : IniTable :=
  match alGet acc e.1 with
  | none => acc ++ [(e.1, e.2)]
  | some lowsec =>
    List.map (fun q => if q.1 = e.1 then (q.1, dictFold lowsec e.2) else q) acc

theorem foldl_sectionStep_fst (sec name : String) (kv : List (String × String)) :
    ∀ acc : List (String × String) × List Conflict,
    (kv.foldl (iniSectionStep sec name) acc).1 = dictFold acc.1 kv := by
  induction kv with
  | nil => intro acc; rfl
  | cons p rest ih =>
    intro acc
    rw [List.foldl_cons, ih]
    rfl

theorem foldl_sectionStep_snd (sec name : String) (kv : List (String × String)) :
    ∀ acc : List (String × String) × List Conflict,
    (kv.foldl (iniSectionStep sec name) acc).2
      = acc.2 ++ (kv.foldl (iniSectionStep sec name) (acc.1, [])).2 := by
  induction kv with
  | nil => intro acc; simp
  | cons p rest ih =>
    intro acc
    rw [List.foldl_cons, List.foldl_cons, ih (iniSectionStep sec name acc p),
        ih (iniSectionStep sec name (acc.1, []) p)]
    have h1 : (iniSectionStep sec name acc p).1 = (iniSectionStep sec name (acc.1, []) p).1 := rfl
    have h2 : (iniSectionStep sec name acc p).2
        = acc.2 ++ (iniSectionStep sec name (acc.1, []) p).2 := by
      simp only [iniSectionStep]
      rcases alGet acc.1 p.1 with _ | w
      · simp
      · by_cases hw : w = p.2 <;> simp [hw]
    rw [h2, h1, List.append_assoc]

theorem merge_into_section_fst (lowsec : List (String × String)) (sec name : String)
    (kv : List (String × String)) :
    (merge_into_section lowsec sec name kv).1 = dictFold lowsec kv :=
  foldl_sectionStep_fst sec name kv (lowsec, [])

theorem iniTableStep_fst (name : String) (acc : IniTable × List Conflict)
    (e : String × List (String × String)) :
    (iniTableStep name acc e).1 = tableStep acc.1 e := by
  unfold iniTableStep tableStep
  rcases h : alGet acc.1 e.1 with _ | lowsec
  · rfl
  · simp only []
    rw [merge_into_section_fst]

theorem merge_dicts_fst (low high : IniTable) (name : String) :
    (merge_dicts low high name).1 = high.foldl tableStep low := by
  suffices h : ∀ (hi : IniTable) (acc : IniTable × List Conflict),
      (hi.foldl (iniTableStep name) acc).1 = hi.foldl tableStep acc.1 by
    exact h high (low, [])
  intro hi
  induction hi with
  | nil => intro acc; rfl
  | cons e rest ih =>
    intro acc
    rw [List.foldl_cons, List.foldl_cons, ih, iniTableStep_fst]

theorem foldl_tableStep_snd (name : String) (high : IniTable) :
    ∀ acc : IniTable × List Conflict,
    (high.foldl (iniTableStep name) acc).2
      = acc.2 ++ (high.foldl (iniTableStep name) (acc.1, [])).2 := by
  induction high with
  | nil => intro acc; simp
  | cons e rest ih =>
    intro acc
    rw [List.foldl_cons, List.foldl_cons, ih (iniTableStep name acc e),
        ih (iniTableStep name (acc.1, []) e)]
    have h1 : (iniTableStep name acc e).1 = (iniTableStep name (acc.1, []) e).1 := by
      unfold iniTableStep
      rcases h : alGet acc.1 e.1 with _ | lowsec <;> simp [h]
    have h2 : (iniTableStep name acc e).2 = acc.2 ++ (iniTableStep name (acc.1, []) e).2 := by
      unfold iniTableStep
      rcases h : alGet acc.1 e.1 with _ | lowsec <;> simp [h]
    rw [h2, h1, List.append_assoc]

/-- Updating the value stored at key `s` in place. -/
theorem alGet_mapValue {α : Type} (l : List (String × α)) (s : String) (x : α)
    (k : String) :
    alGet (List.map (fun q => if q.1 = s then (q.1, x) else q) l) k
      = if k = s then (alGet l s).map (fun _ => x) else alGet l k := by
  induction l with
  | nil => by_cases h : k = s <;> simp [alGet, h]
  | cons q rest ih =>
    simp only [List.map_cons]
    by_cases hq : q.1 = s
    · rw [if_pos hq]
      by_cases hk : k = s
      · subst hk
        rw [if_pos rfl]
        rw [show alGet ((q.1, x) :: List.map (fun q => if q.1 = k then (q.1, x) else q) rest) k
              = some x by simp [alGet, hq],
            show alGet (q :: rest) k = some q.2 by simp [alGet, hq]]
        rfl
      · rw [if_neg hk]
        have hqk : q.1 ≠ k := fun he => hk (by rw [← he, hq])
        rw [show alGet ((q.1, x) :: List.map (fun q => if q.1 = s then (q.1, x) else q) rest) k
              = alGet (List.map (fun q => if q.1 = s then (q.1, x) else q) rest) k by
            simp [alGet, hqk],
            show alGet (q :: rest) k = alGet rest k by simp [alGet, hqk],
            ih, if_neg hk]
    · rw [if_neg hq]
      by_cases hqk : q.1 = k
      · have hk : k ≠ s := fun he => hq (by rw [hqk, he])
        simp [alGet, hqk, hk]
      · rw [show alGet (q :: List.map (fun q => if q.1 = s then (q.1, x) else q) rest) k
              = alGet (List.map (fun q => if q.1 = s then (q.1, x) else q) rest) k by
            simp [alGet, hqk],
            show alGet (q :: rest) k = alGet rest k by simp [alGet, hqk], ih]
        by_cases hk : k = s
        · rw [if_pos hk, if_pos hk]
          rw [show alGet (q :: rest) s = alGet rest s by simp [alGet, hq]]
        · rw [if_neg hk, if_neg hk]

/-- The value a key holds after one `merge_dicts`: the high-priority table
wins wherever it defines the key; the low-priority value survives
everywhere else. -/
theorem tableFold_lookup : ∀ (high low : IniTable), (alKeys high).Nodup →
    (∀ e ∈ high, (alKeys e.2).Nodup) → ∀ sec k,
    alGet2 (high.foldl tableStep low) sec k = (alGet2 high sec k).or (alGet2 low sec k) := by
  intro high
  induction high with
  | nil =>
    intro low _ _ sec k
    simp [alGet2, alGet]
  | cons e rest ih =>
    intro low hnd hkv sec k
    rw [List.foldl_cons,
        ih (tableStep low e) (List.nodup_cons.mp hnd).2
          (fun q hq => hkv q (List.mem_cons_of_mem e hq)) sec k]
    by_cases hsec : sec = e.1
    · subst hsec
      have hrest : alGet rest e.1 = none :=
        (alGet_eq_none_iff rest e.1).mpr (List.nodup_cons.mp hnd).1
      rw [show alGet2 rest e.1 k = none by simp [alGet2, hrest]]
      rw [show alGet2 (e :: rest) e.1 k = alGet e.2 k by simp [alGet2, alGet]]
      unfold tableStep
      rcases hlow : alGet low e.1 with _ | lowsec
      · rw [show alGet2 low e.1 k = none by simp [alGet2, hlow]]
        have hmem : ∀ p ∈ low, p.1 ≠ e.1 := by
          intro p hp he
          exact ((alGet_eq_none_iff low e.1).mp hlow) (he ▸ List.mem_map_of_mem (·.1) hp)
        rw [show alGet2 (low ++ [(e.1, e.2)]) e.1 k = alGet e.2 k by
          simp [alGet2, alGet_append_last low e.1 e.2 hmem]]
        simp
      · rw [show alGet2 low e.1 k = alGet lowsec k by simp [alGet2, hlow]]
        rw [show alGet2 (List.map (fun q => if q.1 = e.1 then (q.1, dictFold lowsec e.2) else q) low)
              e.1 k = alGet (dictFold lowsec e.2) k by
          simp only [alGet2]
          rw [alGet_mapValue low e.1 (dictFold lowsec e.2) e.1, if_pos rfl, hlow]
          rfl]
        rw [dictFold_lookup e.2 lowsec k (hkv e (List.mem_cons_self e rest))]
        simp
    · rw [show alGet2 (e :: rest) sec k = alGet2 rest sec k by
        simp [alGet2, alGet, Ne.symm hsec]]
      have hstep : alGet2 (tableStep low e) sec k = alGet2 low sec k := by
        unfold tableStep
        rcases hlow : alGet low e.1 with _ | lowsec
        · simp only [alGet2]
          rw [alGet_append_single_ne low e.1 sec e.2 hsec]
        · simp only [alGet2]
          rw [alGet_mapValue low e.1 (dictFold lowsec e.2) sec, if_neg hsec]
      rw [hstep]

/-! ## C1: the priority law -/

theorem mergeNodes_attrib (t : Elem) (st : String) (sa : List (String × String))
    (sx : Option String) (scs : List Elem) :
    (merge_xml_children_nodes t (.mk st sa sx scs)).attrib = dictFold t.attrib sa := rfl

/-- C1, counterexample: the merged document root keeps the lowest tier's
root attribute; the higher tiers' values `"2"`/`"3"` are discarded. -/
theorem priority_law_root_counterexample :
    alGet (merge_catalog (merge_catalog (.mk "C" [("v", "1")] none [])
        (.mk "C" [("v", "2")] none [])) (.mk "C" [("v", "3")] none [])).attrib "v"
      = some "1"
    ∧ (some "1" : Option String) ≠ some "3" ∧ (some "1" : Option String) ≠ some "2" := by
  refine ⟨rfl, by decide, by decide⟩

/-- C1 amended: the priority law (Overlay over Patch over Base) holds for
the attributes of nodes merged through `merge_xml_children_nodes` — i.e.
for every identity-matched node, in particular all matched descendants —
and for section-table keys merged through the chained `merge_dicts`; the
document root element's attributes are the exception recorded in the
counterexample. -/
theorem priority_law_amended :
    (∀ t p o : Elem, (alKeys p.attrib).Nodup → (alKeys o.attrib).Nodup → ∀ k,
      alGet (merge_xml_children_nodes (merge_xml_children_nodes t p) o).attrib k
        = ((alGet o.attrib k).or ((alGet p.attrib k).or (alGet t.attrib k))))
    ∧ (∀ base patch extra : IniTable, (alKeys patch).Nodup →
      (∀ e ∈ patch, (alKeys e.2).Nodup) → (alKeys extra).Nodup →
      (∀ e ∈ extra, (alKeys e.2).Nodup) → ∀ sec k,
      alGet2 (merge_dicts (merge_dicts base patch "patch").1 extra "extra").1 sec k
        = ((alGet2 extra sec k).or ((alGet2 patch sec k).or (alGet2 base sec k)))) := by
  constructor
  · intro t p o hp ho k
    obtain ⟨ot, oa, ox, ocs⟩ := o
    simp only [Elem.attrib_mk] at ho
    rw [mergeNodes_attrib]
    simp only [Elem.attrib_mk]
    rw [dictFold_lookup oa _ k ho]
    obtain ⟨pt, pa, px, pcs⟩ := p
    simp only [Elem.attrib_mk] at hp
    rw [mergeNodes_attrib]
    simp only [Elem.attrib_mk]
    rw [dictFold_lookup pa _ k hp]
  · intro base patch extra hps hpkv hes hekv sec k
    rw [merge_dicts_fst, tableFold_lookup extra _ hes hekv sec k,
        merge_dicts_fst, tableFold_lookup patch _ hps hpkv sec k]

/-- Witness for the amended C1 at concrete inputs. -/
theorem priority_law_amended_witness :
    alGet (merge_xml_children_nodes (merge_xml_children_nodes
          (.mk "u" [("hp", "1")] none []) (.mk "u" [("hp", "2")] none []))
        (.mk "u" [("hp", "3")] none [])).attrib "hp" = some "3"
    ∧ alGet2 (merge_dicts (merge_dicts [("S", [("hp", "1")])] [("S", [("hp", "2")])]
          "patch").1 [("S", [("hp", "3")])] "extra").1 "S" "hp" = some "3" := by
  constructor
  · rw [priority_law_amended.1 (.mk "u" [("hp", "1")] none [])
      (.mk "u" [("hp", "2")] none []) (.mk "u" [("hp", "3")] none [])
      (by decide) (by decide) "hp"]
    decide
  · rw [priority_law_amended.2 [("S", [("hp", "1")])] [("S", [("hp", "2")])]
      [("S", [("hp", "3")])] (by decide) (by decide) (by decide) (by decide) "S" "hp"]
    decide

/-! ## C10: duplicate keys within one input file -/

/-- Updating the value stored at key `s` in place by a function. -/
theorem alGet_mapModify {α : Type} (l : List (String × α)) (s : String) (f : α → α)
    (k : String) :
    alGet (List.map (fun q => if q.1 = s then (q.1, f q.2) else q) l) k
      = if k = s then (alGet l s).map f else alGet l k := by
  induction l with
  | nil => by_cases h : k = s <;> simp [alGet, h]
  | cons q rest ih =>
    simp only [List.map_cons]
    by_cases hq : q.1 = s
    · rw [if_pos hq]
      by_cases hk : k = s
      · subst hk
        rw [if_pos rfl]
        rw [show alGet ((q.1, f q.2) :: List.map (fun q => if q.1 = k then (q.1, f q.2) else q) rest) k
              = some (f q.2) by simp [alGet, hq],
            show alGet (q :: rest) k = some q.2 by simp [alGet, hq]]
        rfl
      · rw [if_neg hk]
        have hqk : q.1 ≠ k := fun he => hk (by rw [← he, hq])
        rw [show alGet ((q.1, f q.2) :: List.map (fun q => if q.1 = s then (q.1, f q.2) else q) rest) k
              = alGet (List.map (fun q => if q.1 = s then (q.1, f q.2) else q) rest) k by
            simp [alGet, hqk],
            show alGet (q :: rest) k = alGet rest k by simp [alGet, hqk],
            ih, if_neg hk]
    · rw [if_neg hq]
      by_cases hqk : q.1 = k
      · have hk : k ≠ s := fun he => hq (by rw [hqk, he])
        simp [alGet, hqk, hk]
      · rw [show alGet (q :: List.map (fun q => if q.1 = s then (q.1, f q.2) else q) rest) k
              = alGet (List.map (fun q => if q.1 = s then (q.1, f q.2) else q) rest) k by
            simp [alGet, hqk],
            show alGet (q :: rest) k = alGet rest k by simp [alGet, hqk], ih]
        by_cases hk : k = s
        · rw [if_pos hk, if_pos hk]
          rw [show alGet (q :: rest) s = alGet rest s by simp [alGet, hq]]
        · rw [if_neg hk, if_neg hk]

/-- `data.setdefault(current, {})[k] = v` makes `data[current][k] == v`,
regardless of any earlier binding of `k`. -/
theorem alGet2_alSet2_self (t : IniTable) (sec k v : String) :
    alGet2 (alSet2 t sec k v) sec k = some v := by
  unfold alSet2
  rcases h : alGet t sec with _ | kv
  · have hmem : ∀ p ∈ t, p.1 ≠ sec := fun p hp he =>
      (alGet_eq_none_iff t sec).mp h (he ▸ List.mem_map_of_mem (·.1) hp)
    simp only [alGet2]
    rw [alGet_append_last t sec _ hmem]
    exact alGet_dictSet_self [] k v
  · simp only [alGet2]
    rw [alGet_mapModify t sec (fun kv => dictSet kv k v) sec, if_pos rfl, h]
    exact alGet_dictSet_self kv k v

/-- Folding fresh sections into a table they are all new to just appends
them and emits no conflicts. -/
theorem merge_dicts_all_new (name : String) :
    ∀ (t : IniTable) (acc : IniTable × List Conflict), (alKeys t).Nodup →
    (∀ e ∈ t, alGet acc.1 e.1 = none) →
    t.foldl (iniTableStep name) acc = (acc.1 ++ t, acc.2) := by
  intro t
  induction t with
  | nil => intro acc _ _; simp
  | cons e rest ih =>
    intro acc hnd hnew
    rw [List.foldl_cons]
    have hstep : iniTableStep name acc e = (acc.1 ++ [e], acc.2) := by
      unfold iniTableStep
      rw [hnew e (List.mem_cons_self e rest)]
    rw [hstep, ih (acc.1 ++ [e], acc.2) (List.nodup_cons.mp hnd).2 ?_]
    · simp
    · intro e' he'
      have hne : e'.1 ≠ e.1 := by
        intro he
        have hk : e'.1 ∈ alKeys rest := List.mem_map_of_mem (·.1) he'
        rw [he] at hk
        exact (List.nodup_cons.mp hnd).1 hk
      have he2 : e = (e.1, e.2) := rfl
      rw [show (acc.1 ++ [e] : IniTable) = acc.1 ++ [(e.1, e.2)] from rfl,
          alGet_append_single_ne acc.1 e.1 e'.1 e.2 hne]
      exact hnew e' (List.mem_cons_of_mem e he')

/-- Merging a single table over the empty table reproduces it exactly,
with no conflicts. -/
theorem merge_dicts_empty_low (t : IniTable) (name : String)
    (hnd : (alKeys t).Nodup) : merge_dicts [] t name = (t, []) := by
  unfold merge_dicts
  rw [merge_dicts_all_new name t ([], []) hnd (fun e _ => rfl)]
  simp

/-- C10: a key repeated inside one section of a single input file keeps
the value of the last occurrence — re-processing a `k=v` line overwrites
whatever was stored before — and a single-tier table merged over the
empty base produces no conflict records at all (conflicts exist only
across tiers). -/
theorem duplicate_key_last_wins :
    (∀ (tbl : IniTable) (cur raw k v : String),
      (pyStrip raw = "" || startsWithChar (pyStrip raw) '#'
        || startsWithChar (pyStrip raw) ';') = false →
      (startsWithChar (pyStrip raw) '[' && endsWithChar (pyStrip raw) ']') = false →
      splitEq (pyStrip raw) = some (k, v) →
      alGet2 (read_ini_line (tbl, cur) raw).1 cur (pyStrip k) = some (pyStrip v))
    ∧ (∀ (t : IniTable) (name : String), (alKeys t).Nodup →
      (merge_dicts [] t name).2 = []) := by
  constructor
  · intro tbl cur raw k v h1 h2 h3
    unfold read_ini_line
    simp only [h1, h2, h3, Bool.false_eq_true, if_false]
    exact alGet2_alSet2_self tbl cur (pyStrip k) (pyStrip v)
  · intro t name hnd
    rw [merge_dicts_empty_low t name hnd]

/-- Witness for C10 at a concrete input: the second `a=2` line overrides
the earlier binding `a=1`, and the single-tier merge emits no conflicts. -/
theorem duplicate_key_last_wins_witness :
    alGet2 (read_ini_line ([("__root__", [("a", "1")])], "__root__") "a=2").1
        "__root__" "a" = some "2"
    ∧ (merge_dicts [] [("__root__", [("a", "2")])] "patch").2 = [] := by
  constructor
  · exact duplicate_key_last_wins.1 [("__root__", [("a", "1")])] "__root__" "a=2"
      "a" "2" (by decide) (by decide) (by decide)
  · exact duplicate_key_last_wins.2 [("__root__", [("a", "2")])] "patch" (by decide)

/-- Witness for C5 at a concrete input: precedence of `id` over `index`,
and reordered attributes giving the same key. -/
theorem xml_identity_key_spec_witness :
    xml_identity_key (.mk "u" [("index", "3"), ("id", "m")] none [])
        = .id_ "u" "m"
      ∧ xml_identity_key (.mk "u" [("index", "3"), ("hp", "7")] none [])
        = xml_identity_key (.mk "u" [("hp", "7"), ("index", "3")] none []) := by
  constructor
  · exact (xml_identity_key_spec.1 (.mk "u" [("index", "3"), ("id", "m")] none [])).1
      "m" (by decide)
  · exact xml_identity_key_spec.2 "u" none none [] []
      [("index", "3"), ("hp", "7")] [("hp", "7"), ("index", "3")]
      (by decide) (List.Perm.swap _ _ _)

/-! ## C6: the section-merge conflict rule -/

/-- Modelled from the spec's conflict rule, as a closed form: one record
per incoming (section, key, value) whose key already exists in the
low-priority table with a different value; a new key or an equal value
emits nothing. -/
def sectionConflicts (lowsec : List (String × String)) (sec name : String)
    (kv : List (String × String)) : List Conflict :=
  kv.filterMap (fun p =>
    match alGet lowsec p.1 with
    | some w => if w ≠ p.2 then some ⟨sec, p.1, name, p.2⟩ else none
    | none => none)

/-- Closed form of the whole table's conflicts. -/
def conflictsSpec (low high : IniTable) (name : String) : List Conflict :=
  high.flatMap (fun e =>
    match alGet low e.1 with
    | none => []
    | some lowsec => sectionConflicts lowsec e.1 name e.2)

theorem sectionConflicts_cons (lowsec : List (String × String)) (sec name : String)
    (p : String × String) (rest : List (String × String)) :
    sectionConflicts lowsec sec name (p :: rest)
      = (match alGet lowsec p.1 with
         | some w => if w ≠ p.2 then [⟨sec, p.1, name, p.2⟩] else []
         | none => []) ++ sectionConflicts lowsec sec name rest := by
  unfold sectionConflicts
  rcases h : alGet lowsec p.1 with _ | w
  · simp [List.filterMap_cons, h]
  · by_cases hw : w = p.2 <;> simp [List.filterMap_cons, h, hw]

theorem sectionConflicts_congr {lowsec lowsec' : List (String × String)}
    {sec name : String} {kv : List (String × String)}
    (h : ∀ p ∈ kv, alGet lowsec p.1 = alGet lowsec' p.1) :
    sectionConflicts lowsec sec name kv = sectionConflicts lowsec' sec name kv := by
  induction kv with
  | nil => rfl
  | cons p rest ih =>
    rw [sectionConflicts_cons, sectionConflicts_cons, h p (List.mem_cons_self p rest),
        ih (fun q hq => h q (List.mem_cons_of_mem p hq))]

theorem merge_into_section_snd (sec name : String) :
    ∀ (kv : List (String × String)) (lowsec : List (String × String)),
    (alKeys kv).Nodup →
    (merge_into_section lowsec sec name kv).2 = sectionConflicts lowsec sec name kv := by
  intro kv
  induction kv with
  | nil => intro lowsec _; rfl
  | cons p rest ih =>
    intro lowsec hnd
    unfold merge_into_section
    rw [List.foldl_cons,
        foldl_sectionStep_snd sec name rest (iniSectionStep sec name (lowsec, []) p)]
    have h1 : (iniSectionStep sec name (lowsec, []) p).1 = dictSet lowsec p.1 p.2 := rfl
    rw [h1]
    have h2 : (rest.foldl (iniSectionStep sec name) (dictSet lowsec p.1 p.2, [])).2
        = sectionConflicts (dictSet lowsec p.1 p.2) sec name rest :=
      ih (dictSet lowsec p.1 p.2) (List.nodup_cons.mp hnd).2
    rw [h2]
    have h3 : sectionConflicts (dictSet lowsec p.1 p.2) sec name rest
        = sectionConflicts lowsec sec name rest := by
      apply sectionConflicts_congr
      intro q hq
      have hqp : q.1 ≠ p.1 := by
        intro he
        have hk : q.1 ∈ alKeys rest := List.mem_map_of_mem (·.1) hq
        rw [he] at hk
        exact (List.nodup_cons.mp hnd).1 hk
      exact alGet_dictSet_ne lowsec p.1 q.1 p.2 hqp
    rw [h3, sectionConflicts_cons]
    have hh : (iniSectionStep sec name (lowsec, []) p).2
        = (match alGet lowsec p.1 with
           | some w => if w ≠ p.2 then [(⟨sec, p.1, name, p.2⟩ : Conflict)] else []
           | none => []) := by
      unfold iniSectionStep
      rcases h : alGet lowsec p.1 with _ | w
      · simp [h]
      · by_cases hw : w = p.2 <;> simp [h, hw]
    rw [hh]

theorem conflictsSpec_cons (low : IniTable) (e : String × List (String × String))
    (rest : IniTable) (name : String) :
    conflictsSpec low (e :: rest) name
      = (match alGet low e.1 with
         | none => []
         | some lowsec => sectionConflicts lowsec e.1 name e.2)
        ++ conflictsSpec low rest name := by
  unfold conflictsSpec
  simp [List.flatMap_cons]

theorem conflictsSpec_congr {low low' rest : IniTable} {name : String}
    (h : ∀ e ∈ rest, alGet low e.1 = alGet low' e.1) :
    conflictsSpec low rest name = conflictsSpec low' rest name := by
  induction rest with
  | nil => rfl
  | cons e rs ih =>
    rw [conflictsSpec_cons, conflictsSpec_cons, h e (List.mem_cons_self e rs),
        ih (fun q hq => h q (List.mem_cons_of_mem e hq))]

/-- A step of `merge_dicts` only rewrites the section it processes. -/
theorem tableStep_alGet_ne (low : IniTable) (e : String × List (String × String))
    (s : String) (h : s ≠ e.1) : alGet (tableStep low e) s = alGet low s := by
  unfold tableStep
  rcases hlow : alGet low e.1 with _ | lowsec
  · exact alGet_append_single_ne low e.1 s e.2 h
  · rw [alGet_mapValue low e.1 (dictFold lowsec e.2) s, if_neg h]

/-- The conflicts `merge_dicts` prints are exactly the closed form. -/
theorem merge_dicts_snd (name : String) :
    ∀ (high low : IniTable), (alKeys high).Nodup →
    (∀ e ∈ high, (alKeys e.2).Nodup) →
    (merge_dicts low high name).2 = conflictsSpec low high name := by
  intro high
  induction high with
  | nil => intro low _ _; rfl
  | cons e rest ih =>
    intro low hnd hkv
    unfold merge_dicts
    rw [List.foldl_cons, foldl_tableStep_snd name rest (iniTableStep name (low, []) e)]
    have h1 : (iniTableStep name (low, []) e).1 = tableStep low e := by
      rw [iniTableStep_fst]
    rw [h1]
    have h2 : (rest.foldl (iniTableStep name) (tableStep low e, [])).2
        = conflictsSpec (tableStep low e) rest name :=
      ih (tableStep low e) (List.nodup_cons.mp hnd).2
        (fun q hq => hkv q (List.mem_cons_of_mem e hq))
    rw [h2]
    have h3 : conflictsSpec (tableStep low e) rest name = conflictsSpec low rest name := by
      apply conflictsSpec_congr
      intro q hq
      have hqe : q.1 ≠ e.1 := by
        intro he
        have hk : q.1 ∈ alKeys rest := List.mem_map_of_mem (·.1) hq
        rw [he] at hk
        exact (List.nodup_cons.mp hnd).1 hk
      exact tableStep_alGet_ne low e q.1 hqe
    rw [h3, conflictsSpec_cons]
    have hh : (iniTableStep name (low, []) e).2
        = (match alGet low e.1 with
           | none => []
           | some lowsec => sectionConflicts lowsec e.1 name e.2) := by
      unfold iniTableStep
      rcases h : alGet low e.1 with _ | lowsec
      · simp [h]
      · simp [h, merge_into_section_snd e.1 name e.2 lowsec
          (hkv e (List.mem_cons_self e rest))]
    rw [hh]

theorem sectionConflicts_mem {lowsec : List (String × String)} {sec name : String}
    {kv : List (String × String)} {c : Conflict}
    (h : c ∈ sectionConflicts lowsec sec name kv) :
    c.sec = sec ∧ c.key ∈ alKeys kv ∧ c.tier = name := by
  unfold sectionConflicts at h
  rcases List.mem_filterMap.mp h with ⟨p, hp, hpc⟩
  rcases halg : alGet lowsec p.1 with _ | w <;> rw [halg] at hpc
  · cases hpc
  · by_cases hw : w = p.2
    · simp [hw] at hpc
    · simp only [hw, ne_eq, not_false_eq_true, if_true, Option.some.injEq] at hpc
      rw [← hpc]
      exact ⟨rfl, List.mem_map_of_mem (·.1) hp, rfl⟩

theorem conflictsSpec_mem {low high : IniTable} {name : String} {c : Conflict}
    (h : c ∈ conflictsSpec low high name) : c.sec ∈ alKeys high := by
  unfold conflictsSpec at h
  rcases List.mem_flatMap.mp h with ⟨e, he, hc⟩
  rcases halg : alGet low e.1 with _ | lowsec <;> rw [halg] at hc
  · cases hc
  · rw [(sectionConflicts_mem hc).1]
    exact List.mem_map_of_mem (·.1) he

theorem count_sectionConflicts (lowsec : List (String × String)) (sec name : String) :
    ∀ (kv : List (String × String)), (alKeys kv).Nodup → ∀ k v, (k, v) ∈ kv →
    (sectionConflicts lowsec sec name kv).count ⟨sec, k, name, v⟩
      = if alGet lowsec k ≠ none ∧ alGet lowsec k ≠ some v then 1 else 0 := by
  intro kv
  induction kv with
  | nil => intro _ k v h; simp at h
  | cons p rest ih =>
    intro hnd k v hm
    rw [sectionConflicts_cons, List.count_append]
    rcases List.mem_cons.mp hm with h1 | h1
    · have hp1 : p.1 = k := by rw [← h1]
      have hp2 : p.2 = v := by rw [← h1]
      have hknr : k ∉ alKeys rest := by
        rw [← hp1]
        exact (List.nodup_cons.mp hnd).1
      have hc0 : (sectionConflicts lowsec sec name rest).count ⟨sec, k, name, v⟩ = 0 := by
        apply List.count_eq_zero.mpr
        intro hc
        exact hknr (sectionConflicts_mem hc).2.1
      rw [hc0, hp1, hp2]
      rcases halg : alGet lowsec k with _ | w
      · simp
      · by_cases hw : w = v
        · simp [hw]
        · simp [hw, Ne.symm hw]
    · have hp1 : p.1 ≠ k := by
        intro he
        have hk : k ∈ alKeys rest := List.mem_map_of_mem (·.1) h1
        rw [← he] at hk
        exact (List.nodup_cons.mp hnd).1 hk
      have hhead : List.count (⟨sec, k, name, v⟩ : Conflict)
          (match alGet lowsec p.1 with
           | some w => if w ≠ p.2 then [(⟨sec, p.1, name, p.2⟩ : Conflict)] else []
           | none => []) = 0 := by
        rcases halg : alGet lowsec p.1 with _ | w
        · simp
        · by_cases hw : w = p.2
          · simp [hw]
          · simp only [hw, ne_eq, not_false_eq_true, if_true]
            apply List.count_eq_zero.mpr
            intro hc
            have hc2 := List.mem_singleton.mp hc
            exact hp1 (congrArg Conflict.key hc2).symm
      rw [hhead, ih (List.nodup_cons.mp hnd).2 k v h1]
      simp

theorem count_conflictsSpec (name : String) :
    ∀ (high low : IniTable), (alKeys high).Nodup →
    (∀ e ∈ high, (alKeys e.2).Nodup) →
    ∀ sec kv k v, (sec, kv) ∈ high → (k, v) ∈ kv →
    (conflictsSpec low high name).count ⟨sec, k, name, v⟩
      = if alGet2 low sec k ≠ none ∧ alGet2 low sec k ≠ some v then 1 else 0 := by
  intro high
  induction high with
  | nil =>
    intro low _ _ sec kv k v hmem _
    simp at hmem
  | cons e rest ih =>
    intro low hnd hkv sec kv k v hmem hkvm
    rw [conflictsSpec_cons, List.count_append]
    rcases List.mem_cons.mp hmem with h1 | h1
    · have hsec : e.1 = sec := by rw [← h1]
      have hkve : e.2 = kv := by rw [← h1]
      have h0 : (conflictsSpec low rest name).count ⟨sec, k, name, v⟩ = 0 := by
        apply List.count_eq_zero.mpr
        intro hc
        have hmem2 := conflictsSpec_mem hc
        simp only at hmem2
        rw [← hsec] at hmem2
        exact (List.nodup_cons.mp hnd).1 hmem2
      have hhead : List.count (⟨sec, k, name, v⟩ : Conflict)
          (match alGet low e.1 with
           | none => []
           | some lowsec => sectionConflicts lowsec e.1 name e.2)
          = if alGet2 low sec k ≠ none ∧ alGet2 low sec k ≠ some v then 1 else 0 := by
        rcases halg : alGet low e.1 with _ | lowsec
        · have hnone : alGet2 low sec k = none := by
            unfold alGet2
            rw [← hsec, halg]
          simp [hnone]
        · have hval : alGet2 low sec k = alGet lowsec k := by
            unfold alGet2
            rw [← hsec, halg]
          show List.count (⟨sec, k, name, v⟩ : Conflict)
            (sectionConflicts lowsec e.1 name e.2) = _
          have hcount := count_sectionConflicts lowsec sec name e.2
            (hkv e (List.mem_cons_self e rest)) k v (by rw [hkve]; exact hkvm)
          rw [hsec, hcount, hval]
      rw [hhead, h0]
      simp
    · have hsecne : e.1 ≠ sec := by
        intro he
        have hk : sec ∈ alKeys rest := List.mem_map_of_mem (·.1) h1
        rw [← he] at hk
        exact (List.nodup_cons.mp hnd).1 hk
      have hhead : List.count (⟨sec, k, name, v⟩ : Conflict)
          (match alGet low e.1 with
           | none => []
           | some lowsec => sectionConflicts lowsec e.1 name e.2) = 0 := by
        rcases halg : alGet low e.1 with _ | lowsec
        · simp
        · apply List.count_eq_zero.mpr
          intro hc
          have hcs := (sectionConflicts_mem hc).1
          exact hsecne hcs.symm
      rw [hhead, ih low (List.nodup_cons.mp hnd).2
        (fun q hq => hkv q (List.mem_cons_of_mem e hq)) sec kv k v h1 hkvm]
      simp

/-- C6: each incoming (section, key, value) from the higher tier ends up
stored; a key already present with a different value produces exactly one
conflict record naming the section, key, overriding tier and new value; an
equal or fresh value produces none; and the conflicts are exactly the
closed-form `conflictsSpec`, so a conflict never stops the merge. -/
theorem merge_dicts_conflict_rule (low high : IniTable) (name : String)
    (hnd : (alKeys high).Nodup) (hkv : ∀ e ∈ high, (alKeys e.2).Nodup) :
    (∀ sec kv k v, (sec, kv) ∈ high → (k, v) ∈ kv →
      alGet2 (merge_dicts low high name).1 sec k = some v)
    ∧ (merge_dicts low high name).2 = conflictsSpec low high name
    ∧ (∀ sec kv k v, (sec, kv) ∈ high → (k, v) ∈ kv →
      (merge_dicts low high name).2.count ⟨sec, k, name, v⟩
        = if alGet2 low sec k ≠ none ∧ alGet2 low sec k ≠ some v then 1 else 0) := by
  refine ⟨?_, merge_dicts_snd name high low hnd hkv, ?_⟩
  · intro sec kv k v hm hkm
    rw [merge_dicts_fst, tableFold_lookup high low hnd hkv sec k]
    have hh : alGet2 high sec k = some v := by
      unfold alGet2
      rw [mem_alGet hnd hm]
      exact mem_alGet (hkv (sec, kv) hm) hkm
    rw [hh]
    rfl
  · intro sec kv k v hm hkm
    rw [merge_dicts_snd name high low hnd hkv]
    exact count_conflictsSpec name high low hnd hkv sec kv k v hm hkm

/-- Witness for C6 at the spec's own example: `[Sounds] volume=50` under
`volume=80` yields the value 80 and exactly one conflict record. -/
theorem merge_dicts_conflict_rule_witness :
    alGet2 (merge_dicts [("Sounds", [("volume", "50")])]
        [("Sounds", [("volume", "80")])] "patch").1 "Sounds" "volume" = some "80"
    ∧ (merge_dicts [("Sounds", [("volume", "50")])]
        [("Sounds", [("volume", "80")])] "patch").2.count
          ⟨"Sounds", "volume", "patch", "80"⟩ = 1 := by
  constructor
  · exact (merge_dicts_conflict_rule [("Sounds", [("volume", "50")])]
      [("Sounds", [("volume", "80")])] "patch" (by decide) (by decide)).1
      "Sounds" [("volume", "80")] "volume" "80" (by decide) (by decide)
  · rw [(merge_dicts_conflict_rule [("Sounds", [("volume", "50")])]
      [("Sounds", [("volume", "80")])] "patch" (by decide) (by decide)).2.2
      "Sounds" [("volume", "80")] "volume" "80" (by decide) (by decide)]
    decide

/-! ## C7: serialization order and determinism -/

theorem fmtItems_perm {kv₁ kv₂ : List (String × String)} (h : List.Perm kv₁ kv₂) :
    fmtItems kv₁ = fmtItems kv₂ := by
  unfold fmtItems
  rw [sortPairs_perm_eq h]

theorem foldl_congr_mem {α β : Type} (f g : β → α → β) :
    ∀ (l : List α) (acc : β), (∀ b a, a ∈ l → f b a = g b a) →
    l.foldl f acc = l.foldl g acc := by
  intro l
  induction l with
  | nil => intro acc _; rfl
  | cons a rest ih =>
    intro acc h
    rw [List.foldl_cons, List.foldl_cons, h acc a (List.mem_cons_self a rest),
        ih (g acc a) (fun b a' ha' => h b a' (List.mem_cons_of_mem a ha'))]

/-- C7 amended: the serialized output is a deterministic function of the
parsed tables as finite maps — two tables with the same sections and
per-section key/value multisets (i.e. differing only in the insertion
order read_ini happened to produce) serialize identically, root
pseudo-section first and sections sorted. -/
theorem write_ini_deterministic (t₁ t₂ : IniTable)
    (h₁ : (alKeys t₁).Nodup) (h₂ : (alKeys t₂).Nodup)
    (hsec : ∀ s, s ∈ alKeys t₁ ↔ s ∈ alKeys t₂)
    (hkv : ∀ s kv₁ kv₂, alGet t₁ s = some kv₁ → alGet t₂ s = some kv₂ →
      List.Perm kv₁ kv₂) :
    write_ini t₁ = write_ini t₂ := by
  unfold write_ini
  dsimp only
  have hsections : sortStrings (List.filter (fun s => s ≠ "__root__") (alKeys t₁))
      = sortStrings (List.filter (fun s => s ≠ "__root__") (alKeys t₂)) := by
    apply sortStrings_perm_eq
    apply (List.perm_ext_iff_of_nodup (h₁.filter _) (h₂.filter _)).mpr
    intro s
    simp only [List.mem_filter]
    constructor
    · intro ⟨hm, hne⟩
      exact ⟨(hsec s).mp hm, hne⟩
    · intro ⟨hm, hne⟩
      exact ⟨(hsec s).mpr hm, hne⟩
  have hroot : (match alGet t₁ "__root__" with
      | some kv => if kv ≠ [] then fmtItems kv ++ "\n" else ""
      | none => "")
      = (match alGet t₂ "__root__" with
      | some kv => if kv ≠ [] then fmtItems kv ++ "\n" else ""
      | none => "") := by
    rcases hr₁ : alGet t₁ "__root__" with _ | kv₁ <;>
      rcases hr₂ : alGet t₂ "__root__" with _ | kv₂
    · rfl
    · have hm : "__root__" ∈ alKeys t₁ :=
        (hsec "__root__").mpr (List.mem_map_of_mem (·.1) (alGet_mem hr₂))
      exact absurd hm ((alGet_eq_none_iff t₁ "__root__").mp hr₁)
    · have hm : "__root__" ∈ alKeys t₂ :=
        (hsec "__root__").mp (List.mem_map_of_mem (·.1) (alGet_mem hr₁))
      exact absurd hm ((alGet_eq_none_iff t₂ "__root__").mp hr₂)
    · show (if kv₁ ≠ [] then fmtItems kv₁ ++ "\n" else "")
        = (if kv₂ ≠ [] then fmtItems kv₂ ++ "\n" else "")
      have hperm := hkv "__root__" kv₁ kv₂ hr₁ hr₂
      by_cases hn : kv₁ = []
      · have hn₂ : kv₂ = [] := by
          rw [hn] at hperm
          exact hperm.symm.eq_nil
        rw [hn, hn₂]
      · have hn₂ : kv₂ ≠ [] := by
          intro he
          rw [he] at hperm
          exact hn hperm.eq_nil
        rw [if_pos hn, if_pos hn₂, fmtItems_perm hperm]
  rw [hroot, hsections]
  congr 1
  apply foldl_congr_mem
  intro b s hs
  have hm₂ : s ∈ alKeys t₂ := by
    have := (List.mem_insertionSort strLe).mp hs
    exact (List.mem_filter.mp this).1
  have hm₁ : s ∈ alKeys t₁ := (hsec s).mpr hm₂
  rcases alGet_some_of_mem_keys hm₁ with ⟨kv₁, hv₁⟩
  rcases alGet_some_of_mem_keys hm₂ with ⟨kv₂, hv₂⟩
  rw [hv₁, hv₂]
  simp only [Option.getD_some]
  rw [fmtItems_perm (hkv s kv₁ kv₂ hv₁ hv₂)]

/-- Witness for the amended C7: tables read in different entry orders
(with root keys swapped) serialize to the same text. -/
theorem write_ini_deterministic_witness :
    write_ini [("__root__", [("b", "2"), ("a", "1")]), ("S", [("k", "1")])]
      = write_ini [("S", [("k", "1")]), ("__root__", [("a", "1"), ("b", "2")])] := by
  apply write_ini_deterministic
  · decide
  · decide
  · intro s
    simp only [alKeys, List.map_cons, List.map_nil, List.mem_cons, List.not_mem_nil,
      or_false]
    tauto
  · intro s kv₁ kv₂ h1 h2
    by_cases hs1 : s = "__root__"
    · subst hs1
      have e1 : kv₁ = [("b", "2"), ("a", "1")] := by
        rw [show alGet [("__root__", [("b", "2"), ("a", "1")]), ("S", [("k", "1")])]
            "__root__" = some [("b", "2"), ("a", "1")] from rfl] at h1
        exact (Option.some.injEq _ _).mp h1.symm
      have e2 : kv₂ = [("a", "1"), ("b", "2")] := by
        rw [show alGet [("S", [("k", "1")]), ("__root__", [("a", "1"), ("b", "2")])]
            "__root__" = some [("a", "1"), ("b", "2")] from rfl] at h2
        exact (Option.some.injEq _ _).mp h2.symm
      rw [e1, e2]
      exact List.Perm.swap _ _ _
    · by_cases hs2 : s = "S"
      · subst hs2
        have e1 : kv₁ = [("k", "1")] := by
          rw [show alGet [("__root__", [("b", "2"), ("a", "1")]), ("S", [("k", "1")])]
              "S" = some [("k", "1")] from rfl] at h1
          exact (Option.some.injEq _ _).mp h1.symm
        have e2 : kv₂ = [("k", "1")] := by
          rw [show alGet [("S", [("k", "1")]), ("__root__", [("a", "1"), ("b", "2")])]
              "S" = some [("k", "1")] from rfl] at h2
          exact (Option.some.injEq _ _).mp h2.symm
        rw [e1, e2]
      · exfalso
        have : alGet [("__root__", [("b", "2"), ("a", "1")]), ("S", [("k", "1")])] s
            = none := by
          simp [alGet, Ne.symm hs1, Ne.symm hs2]
        rw [this] at h1
        cases h1

/-- C7, counterexample: swapping two raw lines of one input (same multiset
of lines) changes the serialized output, because the parser keeps the last
occurrence of a repeated key. -/
theorem line_order_counterexample :
    List.Perm (splitLines "a=1\na=2\n") (splitLines "a=2\na=1\n")
    ∧ merge_file_triple ".txt" none (some ⟨"a=1\na=2\n", none⟩) none
        = some (.text "a = 2\n\n")
    ∧ merge_file_triple ".txt" none (some ⟨"a=2\na=1\n", none⟩) none
        = some (.text "a = 1\n\n")
    ∧ (some (OutFile.text "a = 2\n\n") ≠ some (OutFile.text "a = 1\n\n")) := by
  refine ⟨?_, rfl, rfl, ?_⟩
  · show List.Perm ["a=1", "a=2", ""] ["a=2", "a=1", ""]
    exact List.Perm.swap "a=2" "a=1" [""]
  · intro h
    rw [Option.some.injEq, OutFile.text.injEq] at h
    exact absurd h (by decide)

/-! ## C9: paths defined only in the Patch tier -/

theorem alKeys_append_single_nodup {α : Type} (l : List (String × α)) (k : String)
    (v : α) (hnd : (alKeys l).Nodup) (hk : alGet l k = none) :
    (alKeys (l ++ [(k, v)])).Nodup := by
  unfold alKeys
  rw [List.map_append]
  simp only [List.map_cons, List.map_nil]
  rw [List.nodup_append]
  refine ⟨hnd, List.nodup_singleton k, ?_⟩
  intro x hx hx2
  rcases List.mem_map.mp hx with ⟨q, hq, hqk⟩
  simp at hx2
  subst hx2
  exact (alGet_eq_none_iff l x).mp hk (hqk ▸ List.mem_map_of_mem (·.1) hq)

theorem alKeys_mapModify_eq {α : Type} (l : List (String × α)) (s : String)
    (f : α → α) :
    alKeys (List.map (fun q => if q.1 = s then (q.1, f q.2) else q) l) = alKeys l := by
  unfold alKeys
  rw [List.map_map]
  apply List.map_congr_left
  intro p _
  by_cases hp : p.1 = s
  · simp [hp]
  · simp [hp]

theorem alSetdefault_nodup (t : IniTable) (sec : String)
    (h : (alKeys t).Nodup) : (alKeys (alSetdefault t sec)).Nodup := by
  unfold alSetdefault
  rcases hg : alGet t sec with _ | kv
  · exact alKeys_append_single_nodup t sec [] h hg
  · exact h

theorem alSet2_nodup (t : IniTable) (sec k v : String)
    (h : (alKeys t).Nodup) : (alKeys (alSet2 t sec k v)).Nodup := by
  unfold alSet2
  rcases hg : alGet t sec with _ | kv
  · exact alKeys_append_single_nodup t sec (dictSet [] k v) h hg
  · show (alKeys (List.map (fun e => if e.1 = sec then (e.1, dictSet e.2 k v) else e) t)).Nodup
    rw [alKeys_mapModify_eq t sec (fun kv2 => dictSet kv2 k v)]
    exact h

theorem read_ini_line_nodup (st : IniTable × String) (raw : String)
    (h : (alKeys st.1).Nodup) : (alKeys (read_ini_line st raw).1).Nodup := by
  unfold read_ini_line
  dsimp only
  split
  · exact h
  · split
    · exact alSetdefault_nodup st.1 _ h
    · split
      · exact alSet2_nodup st.1 _ _ _ h
      · exact h

/-- The sections of any parsed table are unique. -/
theorem read_ini_sections_nodup (f : Option String) :
    (alKeys (read_ini f)).Nodup := by
  have hgen : ∀ (lines : List String) (st : IniTable × String),
      (alKeys st.1).Nodup → (alKeys (lines.foldl read_ini_line st).1).Nodup := by
    intro lines
    induction lines with
    | nil => intro st h; exact h
    | cons raw rest ih =>
      intro st h
      rw [List.foldl_cons]
      exact ih (read_ini_line st raw) (read_ini_line_nodup st raw h)
  unfold read_ini
  rcases f with _ | content
  · simp [alKeys]
  · exact hgen (splitLines content) ([("__root__", [])], "__root__") (by decide)

/-- C9 amended: when a relative path exists only in the Patch tier, the
byte-copy route and the XML route (when Patch parses) emit Patch's file
verbatim; an unparseable Patch XML yields no output at all; and the
section-table route emits the canonical serialization of Patch's parsed
table rather than Patch's bytes. -/
theorem patch_only_routing (p : SrcFile) :
    (∀ ext : String, ext ≠ ".xml" → ext ≠ ".txt" → ext ≠ ".ini" →
      merge_file_triple ext none (some p) none = some (.bytes p))
    ∧ (p.parsedXml ≠ none → merge_file_triple ".xml" none (some p) none = some (.bytes p))
    ∧ (p.parsedXml = none → merge_file_triple ".xml" none (some p) none = none)
    ∧ merge_file_triple ".txt" none (some p) none
        = some (.text (write_ini (read_ini (some p.raw)))) := by
  refine ⟨?_, ?_, ?_, ?_⟩
  · intro ext h1 h2 h3
    unfold merge_file_triple
    rw [if_neg (by simp), if_neg h1, if_neg (by simp [h2, h3])]
  · intro hp
    rcases he : p.parsedXml with _ | e
    · exact absurd he hp
    · simp [merge_file_triple, xmlStep, merge_catalog_xml, safe_parse, he, docToOut]
  · intro hp
    simp [merge_file_triple, xmlStep, merge_catalog_xml, safe_parse, hp]
  · have hini : merge_ini_files none (some p) none
        = (some (.text (write_ini (read_ini (some p.raw)))), []) := by
      unfold merge_ini_files
      rw [if_neg (by simp)]
      dsimp only
      rw [show read_ini (Option.map (fun x => x.raw) (none : Option SrcFile)) = [] from rfl]
      rw [show read_ini (Option.map (fun x => x.raw) (some p)) = read_ini (some p.raw) from rfl]
      rw [merge_dicts_empty_low (read_ini (some p.raw)) "patch"
            (read_ini_sections_nodup (some p.raw))]
      rfl
    unfold merge_file_triple
    rw [if_neg (by simp), if_neg (by decide), if_pos (by simp), hini]

/-- Witness for the amended C9 at concrete inputs. -/
theorem patch_only_routing_witness :
    merge_file_triple ".bin" none (some ⟨"data", none⟩) none
        = some (.bytes ⟨"data", none⟩)
    ∧ merge_file_triple ".xml" none
        (some ⟨"<C/>", some (.mk "C" [] none [])⟩) none
        = some (.bytes ⟨"<C/>", some (.mk "C" [] none [])⟩)
    ∧ merge_file_triple ".xml" none (some ⟨"garbage", none⟩) none = none
    ∧ merge_file_triple ".txt" none (some ⟨"b=2\na=1\n", none⟩) none
        = some (.text (write_ini (read_ini (some "b=2\na=1\n")))) :=
  ⟨(patch_only_routing ⟨"data", none⟩).1 ".bin" (by decide) (by decide) (by decide),
   (patch_only_routing ⟨"<C/>", some (.mk "C" [] none [])⟩).2.1 (by simp),
   (patch_only_routing ⟨"garbage", none⟩).2.2.1 rfl,
   (patch_only_routing ⟨"b=2\na=1\n", none⟩).2.2.2⟩

/-- C9, counterexample: a Patch-only `.txt` file is re-serialized in
canonical sorted form, not copied verbatim. -/
theorem patch_only_not_verbatim :
    merge_file_triple ".txt" none (some ⟨"b=2\na=1\n", none⟩) none
      = some (.text "a = 1\nb = 2\n\n")
    ∧ "a = 1\nb = 2\n\n" ≠ "b=2\na=1\n"
    ∧ (some (OutFile.text "a = 1\nb = 2\n\n")
        ≠ some (OutFile.bytes ⟨"b=2\na=1\n", none⟩)) := by
  refine ⟨rfl, by decide, ?_⟩
  intro h
  rw [Option.some.injEq] at h
  cases h

/-! ## C2: idempotence of the chained hierarchical merge

The counterexample above shows the claim fails for id-less root children
(and, through the dedup bug of C3, for anonymous descendants).  The
amended claim: the chained self-merge is the identity on trees whose root
has no text and only id-bearing children with distinct ids, and whose
descendants all carry pairwise-distinct non-sentinel identity keys. -/

mutual

/-- Every node below the root has unique attribute keys and identity-keyed
children with pairwise distinct keys. -/
def idempOK : Elem → Prop
  | .mk _ a _ cs =>
    (alKeys a).Nodup
    ∧ (∀ c ∈ cs, (xml_identity_key c).isUnique = false)
    ∧ (cs.map xml_identity_key).Nodup
    ∧ idempOKList cs

def idempOKList : List Elem → Prop
  | [] => True
  | c :: cs => idempOK c ∧ idempOKList cs

end

/-- The root condition: no text, every child with a truthy `id`, the ids
pairwise distinct, and the children themselves `idempOK`. -/
def rootIdempOK : Elem → Prop
  | .mk _ _ x cs =>
    x = none
    ∧ (∀ c ∈ cs, ∃ s, truthyId c = some s)
    ∧ (cs.filterMap truthyId).Nodup
    ∧ idempOKList cs

theorem idempOKList_mem : ∀ {cs : List Elem}, idempOKList cs → ∀ c ∈ cs, idempOK c := by
  intro cs
  induction cs with
  | nil => intro _ c hc; simp at hc
  | cons c' rest ih =>
    intro h c hc
    rcases List.mem_cons.mp hc with h1 | h1
    · rw [h1]; exact h.1
    · exact ih h.2 c h1

theorem set_getD_self {α : Type} (l : List α) (d : α) :
    ∀ i, i < l.length → l.set i (l.getD i d) = l := by
  induction l with
  | nil => intro i hi; simp at hi
  | cons a rest ih =>
    intro i hi
    cases i with
    | zero => rfl
    | succ j =>
      show a :: rest.set j (rest.getD j d) = a :: rest
      rw [ih j (by simpa using hi)]

/-! ### `key_map` lookup facts -/

theorem kmGet_eq_none_iff (km : KeyMap) (k : IdKey) :
    kmGet km k = none ↔ ∀ e ∈ km, e.1 ≠ k := by
  induction km with
  | nil => simp [kmGet]
  | cons e rest ih =>
    by_cases h : e.1 = k
    · simp [kmGet, h]
    · simp [kmGet, h, ih]

theorem kmGet_append_single_ne (km : KeyMap) (k k' : IdKey) (v : List Nat)
    (h : k' ≠ k) : kmGet (km ++ [(k, v)]) k' = kmGet km k' := by
  induction km with
  | nil => simp [kmGet, Ne.symm h]
  | cons e rest ih =>
    by_cases he : e.1 = k'
    · simp [kmGet, he]
    · simp only [List.cons_append]
      rw [show kmGet (e :: (rest ++ [(k, v)])) k' = kmGet (rest ++ [(k, v)]) k' by
            simp [kmGet, he],
          show kmGet (e :: rest) k' = kmGet rest k' by simp [kmGet, he]]
      exact ih

theorem kmAppend_new (km : KeyMap) (k : IdKey) (i : Nat)
    (h : kmGet km k = none) : kmAppend km k i = km ++ [(k, [i])] := by
  unfold kmAppend
  rw [if_neg]
  intro hc
  rcases List.any_eq_true.mp hc with ⟨e, he, hek⟩
  simp only [decide_eq_true_eq] at hek
  exact (kmGet_eq_none_iff km k).mp h e he hek

theorem kmGet_enumFrom (cs : List Elem) : ∀ (n i : Nat), i < cs.length →
    (cs.map xml_identity_key).Nodup →
    kmGet (List.map (fun p => (xml_identity_key p.2, ([p.1] : List Nat)))
        (List.enumFrom n cs)) (xml_identity_key (cs.getD i default)) = some [n + i] := by
  induction cs with
  | nil => intro n i hi; simp at hi
  | cons c rest ih =>
    intro n i hi hnd
    cases i with
    | zero =>
      show kmGet ((xml_identity_key c, [n]) :: _) (xml_identity_key c) = some [n + 0]
      simp [kmGet]
    | succ j =>
      have hj : j < rest.length := by simpa using hi
      have hne : xml_identity_key (rest.getD j default) ≠ xml_identity_key c := by
        intro he
        have hm : xml_identity_key (rest.getD j default) ∈ rest.map xml_identity_key := by
          rw [List.getD_eq_getElem rest default hj]
          exact List.mem_map_of_mem _ (List.getElem_mem hj)
        rw [he] at hm
        exact (List.nodup_cons.mp hnd).1 hm
      show kmGet ((xml_identity_key c, [n]) :: _) (xml_identity_key (rest.getD j default))
        = some [n + (j + 1)]
      rw [show kmGet ((xml_identity_key c, [n]) ::
            List.map (fun p => (xml_identity_key p.2, ([p.1] : List Nat)))
              (List.enumFrom (n + 1) rest)) (xml_identity_key (rest.getD j default))
          = kmGet (List.map (fun p => (xml_identity_key p.2, ([p.1] : List Nat)))
              (List.enumFrom (n + 1) rest)) (xml_identity_key (rest.getD j default)) by
        show (if xml_identity_key c = xml_identity_key (rest.getD j default)
              then some [n]
              else kmGet (List.map (fun p => (xml_identity_key p.2, ([p.1] : List Nat)))
                (List.enumFrom (n + 1) rest)) (xml_identity_key (rest.getD j default)))
            = kmGet (List.map (fun p => (xml_identity_key p.2, ([p.1] : List Nat)))
                (List.enumFrom (n + 1) rest)) (xml_identity_key (rest.getD j default))
        rw [if_neg (Ne.symm hne)]]
      rw [ih (n + 1) j hj (List.nodup_cons.mp hnd).2]
      rw [show n + 1 + j = n + (j + 1) by omega]

theorem buildKeyMapAux_eq (cs : List Elem) : ∀ (n : Nat) (km : KeyMap),
    (cs.map xml_identity_key).Nodup →
    (∀ c ∈ cs, kmGet km (xml_identity_key c) = none) →
    buildKeyMapAux n cs km
      = km ++ List.map (fun p => (xml_identity_key p.2, ([p.1] : List Nat)))
          (List.enumFrom n cs) := by
  induction cs with
  | nil => intro n km _ _; simp [buildKeyMapAux]
  | cons c rest ih =>
    intro n km hnd hnew
    show buildKeyMapAux (n + 1) rest (kmAppend km (xml_identity_key c) n) = _
    rw [kmAppend_new km (xml_identity_key c) n (hnew c (List.mem_cons_self c rest))]
    rw [ih (n + 1) (km ++ [(xml_identity_key c, [n])]) (List.nodup_cons.mp hnd).2 ?_]
    · simp
    · intro c' hc'
      have hne : xml_identity_key c' ≠ xml_identity_key c := by
        intro he
        have hm : xml_identity_key c' ∈ rest.map xml_identity_key :=
          List.mem_map_of_mem _ hc'
        rw [he] at hm
        exact (List.nodup_cons.mp hnd).1 hm
      rw [kmGet_append_single_ne km (xml_identity_key c) (xml_identity_key c') [n] hne]
      exact hnew c' (List.mem_cons_of_mem c hc')

theorem buildKeyMap_lookup (cs : List Elem)
    (hnd : (cs.map xml_identity_key).Nodup) (i : Nat) (hi : i < cs.length) :
    kmGet (buildKeyMap cs) (xml_identity_key (cs.getD i default)) = some [i] := by
  unfold buildKeyMap
  rw [buildKeyMapAux_eq cs 0 [] hnd (fun c _ => rfl)]
  rw [List.nil_append]
  have := kmGet_enumFrom cs 0 i hi hnd
  rw [this]
  rw [show 0 + i = i by omega]

/-! ### Self-merge of the child loop -/

theorem mergeNodes_eq (t : String) (a : List (String × String)) (x : Option String)
    (cs : List Elem) (src : Elem) :
    merge_xml_children_nodes (.mk t a x cs) src
      = .mk t (dictFold a src.attrib) x
          (processSrcChildren cs (buildKeyMap cs) src.children).1 := by
  cases src with
  | mk st sa sx scs => rfl

theorem processSrc_cons_nonunique (cs : List Elem) (km : KeyMap) (child : Elem)
    (rest : List Elem) (i : Nat)
    (hu : (xml_identity_key child).isUnique = false)
    (hg : kmGet km (xml_identity_key child) = some [i]) :
    processSrcChildren cs km (child :: rest)
      = processSrcChildren
          (cs.set i (merge_xml_children_nodes (cs.getD i default) child)) km rest := by
  show (if (xml_identity_key child).isUnique = true then _ else _) = _
  rw [hu]
  show (match kmGet km (xml_identity_key child) with
        | some (i :: _) => processSrcChildren
            (cs.set i (merge_xml_children_nodes (cs.getD i default) child)) km rest
        | _ => processSrcChildren (cs ++ [child])
            (kmAppend km (xml_identity_key child) cs.length) rest) = _
  rw [hg]

theorem processSrc_self (cs : List Elem) (km : KeyMap) :
    ∀ l : List Elem,
    (∀ c ∈ l, (xml_identity_key c).isUnique = false
      ∧ merge_xml_children_nodes c c = c
      ∧ ∃ i, i < cs.length ∧ cs.getD i default = c
          ∧ kmGet km (xml_identity_key c) = some [i]) →
    processSrcChildren cs km l = (cs, km) := by
  intro l
  induction l with
  | nil => intro _; rfl
  | cons child rest ih =>
    intro h
    obtain ⟨hu, hm, i, hi, hgd, hk⟩ := h child (List.mem_cons_self child rest)
    rw [processSrc_cons_nonunique cs km child rest i hu hk]
    rw [hgd, hm]
    have hset : cs.set i child = cs := by
      have := set_getD_self cs default i hi
      rw [hgd] at this
      exact this
    rw [hset]
    exact ih (fun c hc => h c (List.mem_cons_of_mem child hc))

theorem mergeNodes_self_aux : ∀ n : Nat, ∀ e : Elem, sizeOf e ≤ n → idempOK e →
    merge_xml_children_nodes e e = e := by
  intro n
  induction n with
  | zero =>
    intro e he _
    exact absurd he (by cases e; simp)
  | succ n ih =>
    intro e he hok
    cases e with
    | mk t a x cs =>
      obtain ⟨hnd, hsent, hkeys, hlist⟩ := hok
      have hgood : ∀ c ∈ cs, (xml_identity_key c).isUnique = false
          ∧ merge_xml_children_nodes c c = c
          ∧ ∃ i, i < cs.length ∧ cs.getD i default = c
              ∧ kmGet (buildKeyMap cs) (xml_identity_key c) = some [i] := by
        intro c hc
        refine ⟨hsent c hc, ?_, ?_⟩
        · have hsz : sizeOf c < sizeOf (Elem.mk t a x cs) := by
            have h1 := List.sizeOf_lt_of_mem hc
            simp only [Elem.mk.sizeOf_spec]
            omega
          exact ih c (by omega) (idempOKList_mem hlist c hc)
        · obtain ⟨⟨i, hi⟩, hget⟩ := List.mem_iff_get.mp hc
          have hgd : cs.getD i default = c := by
            rw [List.getD_eq_getElem cs default hi]
            exact hget
          refine ⟨i, hi, hgd, ?_⟩
          have := buildKeyMap_lookup cs hkeys i hi
          rw [hgd] at this
          exact this
      rw [mergeNodes_eq]
      simp only [Elem.attrib_mk, Elem.children_mk]
      rw [dictFold_self a a hnd (fun p hp => hp)]
      rw [processSrc_self cs (buildKeyMap cs) cs hgood]

theorem mergeNodes_self (e : Elem) (h : idempOK e) :
    merge_xml_children_nodes e e = e :=
  mergeNodes_self_aux (sizeOf e) e (le_refl _) h

/-! ### Self-merge of the document root -/

theorem truthyId_eq (c : Elem) (s : String) (h : truthyId c = some s) :
    alGet c.attrib "id" = some s := by
  unfold truthyId at h
  cases hg : alGet c.attrib "id" with
  | none => rw [hg] at h; cases h
  | some s' =>
    rw [hg] at h
    have h' : (if s' = "" then (none : Option String) else some s') = some s := h
    by_cases he : s' = ""
    · rw [if_pos he] at h'; cases h'
    · rw [if_neg he] at h'; exact h'

theorem buildByIdAux_frame : ∀ (cs : List Elem) (n : Nat) (m : List (String × Nat))
    (s : String), (∀ c ∈ cs, truthyId c ≠ some s) →
    alGet (buildByIdAux n cs m) s = alGet m s := by
  intro cs
  induction cs with
  | nil => intro n m s _; rfl
  | cons c rest ih =>
    intro n m s h
    cases htc : truthyId c with
    | none =>
      rw [show buildByIdAux n (c :: rest) m = buildByIdAux (n + 1) rest
            (match truthyId c with | some s' => dictSet m s' n | none => m) from rfl, htc]
      exact ih (n + 1) m s (fun c' hc' => h c' (List.mem_cons_of_mem c hc'))
    | some s' =>
      have hne : s' ≠ s := fun he =>
        h c (List.mem_cons_self c rest) (he ▸ htc)
      rw [show buildByIdAux n (c :: rest) m = buildByIdAux (n + 1) rest
            (match truthyId c with | some s' => dictSet m s' n | none => m) from rfl, htc]
      rw [ih (n + 1) (dictSet m s' n) s (fun c' hc' => h c' (List.mem_cons_of_mem c hc'))]
      exact alGet_dictSet_ne m s' s n (Ne.symm hne)

theorem buildByIdAux_lookup : ∀ (cs : List Elem) (n i : Nat)
    (m : List (String × Nat)) (s : String), i < cs.length →
    truthyId (cs.getD i default) = some s →
    (cs.filterMap truthyId).Nodup →
    alGet (buildByIdAux n cs m) s = some (n + i) := by
  intro cs
  induction cs with
  | nil => intro n i m s hi; simp at hi
  | cons c rest ih =>
    intro n i m s hi hts hnd
    cases i with
    | zero =>
      have htc : truthyId c = some s := hts
      have hrest : ∀ c' ∈ rest, truthyId c' ≠ some s := by
        intro c' hc' he
        have hmem : s ∈ rest.filterMap truthyId :=
          List.mem_filterMap.mpr ⟨c', hc', he⟩
        have : (rest.filterMap truthyId).Nodup ∧ s ∉ rest.filterMap truthyId := by
          rw [List.filterMap_cons, htc] at hnd
          exact ⟨(List.nodup_cons.mp hnd).2, (List.nodup_cons.mp hnd).1⟩
        exact this.2 hmem
      rw [show buildByIdAux n (c :: rest) m = buildByIdAux (n + 1) rest
            (match truthyId c with | some s' => dictSet m s' n | none => m) from rfl, htc]
      rw [buildByIdAux_frame rest (n + 1) (dictSet m s n) s hrest]
      rw [alGet_dictSet_self m s n]
      rfl
    | succ j =>
      have hj : j < rest.length := by simpa using hi
      have hts' : truthyId (rest.getD j default) = some s := hts
      have hnd' : (rest.filterMap truthyId).Nodup := by
        rw [List.filterMap_cons] at hnd
        cases htc : truthyId c with
        | none => rw [htc] at hnd; exact hnd
        | some s' => rw [htc] at hnd; exact (List.nodup_cons.mp hnd).2
      rw [show buildByIdAux n (c :: rest) m = buildByIdAux (n + 1) rest
            (match truthyId c with | some s' => dictSet m s' n | none => m) from rfl]
      cases htc : truthyId c with
      | none =>
        rw [ih (n + 1) j m s hj hts' hnd']
        rw [show n + 1 + j = n + (j + 1) by omega]
      | some s' =>
        rw [ih (n + 1) j (dictSet m s' n) s hj hts' hnd']
        rw [show n + 1 + j = n + (j + 1) by omega]

theorem catalogLoop_self (byId : List (String × Nat)) (cs : List Elem) :
    ∀ l : List Elem,
    (∀ c ∈ l, ∃ s i, alGet c.attrib "id" = some s ∧ alGet byId s = some i
      ∧ i < cs.length ∧ cs.getD i default = c
      ∧ merge_xml_children_nodes c c = c) →
    catalogLoop byId cs l = cs := by
  intro l
  induction l with
  | nil => intro _; rfl
  | cons c rest ih =>
    intro h
    obtain ⟨s, i, hid, hbi, hi, hgd, hm⟩ := h c (List.mem_cons_self c rest)
    rw [show catalogLoop byId cs (c :: rest)
          = (match alGet c.attrib "id" with
             | some s' =>
               match alGet byId s' with
               | some i' => catalogLoop byId
                   (cs.set i' (merge_xml_children_nodes (cs.getD i' default) c)) rest
               | none => catalogLoop byId (cs ++ [c]) rest
             | none => catalogLoop byId (cs ++ [c]) rest) from rfl,
        hid]
    show (match alGet byId s with
          | some i' => catalogLoop byId
              (cs.set i' (merge_xml_children_nodes (cs.getD i' default) c)) rest
          | none => catalogLoop byId (cs ++ [c]) rest) = cs
    rw [hbi]
    show catalogLoop byId (cs.set i (merge_xml_children_nodes (cs.getD i default) c))
        rest = cs
    rw [hgd, hm]
    have hset : cs.set i c = cs := by
      have := set_getD_self cs default i hi
      rw [hgd] at this
      exact this
    rw [hset]
    exact ih (fun c' hc' => h c' (List.mem_cons_of_mem c hc'))

theorem merge_catalog_self (T : Elem) (h : rootIdempOK T) : merge_catalog T T = T := by
  cases T with
  | mk t a x cs =>
    obtain ⟨hx, hid, hnd, hlist⟩ := h
    subst hx
    have hgood : ∀ c ∈ cs, ∃ s i, alGet c.attrib "id" = some s
        ∧ alGet (buildById cs) s = some i ∧ i < cs.length
        ∧ cs.getD i default = c ∧ merge_xml_children_nodes c c = c := by
      intro c hc
      obtain ⟨s, hts⟩ := hid c hc
      obtain ⟨⟨i, hi⟩, hget⟩ := List.mem_iff_get.mp hc
      have hgd : cs.getD i default = c := by
        rw [List.getD_eq_getElem cs default hi]
        exact hget
      refine ⟨s, i, truthyId_eq c s hts, ?_, hi, hgd,
        mergeNodes_self c (idempOKList_mem hlist c hc)⟩
      have hlook := buildByIdAux_lookup cs 0 i [] s hi (by rw [hgd]; exact hts) hnd
      rw [Nat.zero_add i] at hlook
      exact hlook
    show Elem.mk t a none (catalogLoop (buildById cs) cs cs) = Elem.mk t a none cs
    rw [catalogLoop_self (buildById cs) cs cs hgood]

/-- **C2** (amended): the chained three-tier hierarchical self-merge
`merge_catalog_xml(merge_catalog_xml(T, T), T)` returns `T` exactly — not
merely up to identity/signature equality — for every tree `T` whose root has
no text and only children carrying pairwise-distinct truthy `id` attributes,
and whose descendants all have unique attribute keys and identity-keyed
children with pairwise-distinct non-sentinel identity keys.  (The unamended
claim fails: see the counterexample.) -/
theorem idempotence_amended (T : Elem) (h : rootIdempOK T) :
    merge_catalog_xml (merge_catalog_xml (some (.tree T)) (some (.tree T)))
      (some (.tree T)) = some (.tree T) := by
  show merge_catalog_xml (some (.tree (merge_catalog T T))) (some (.tree T)) = _
  rw [merge_catalog_self T h]
  show some (XmlDoc.tree (merge_catalog T T)) = some (XmlDoc.tree T)
  rw [merge_catalog_self T h]

/-- Concrete witness for C2: a catalog with one id-bearing unit. -/
theorem idempotence_amended_witness :
    merge_catalog_xml
      (merge_catalog_xml
        (some (.tree (Elem.mk "Catalog" [("file", "x")] none
          [Elem.mk "CUnit" [("id", "m"), ("hp", "5")] none []])))
        (some (.tree (Elem.mk "Catalog" [("file", "x")] none
          [Elem.mk "CUnit" [("id", "m"), ("hp", "5")] none []]))))
      (some (.tree (Elem.mk "Catalog" [("file", "x")] none
        [Elem.mk "CUnit" [("id", "m"), ("hp", "5")] none []])))
      = some (.tree (Elem.mk "Catalog" [("file", "x")] none
          [Elem.mk "CUnit" [("id", "m"), ("hp", "5")] none []])) :=
  idempotence_amended _ (by
    refine ⟨rfl, ?_, by decide, ?_⟩
    · intro c hc
      rw [List.mem_singleton] at hc
      exact ⟨"m", by rw [hc]; rfl⟩
    · exact ⟨⟨by decide, fun c hc => absurd hc (List.not_mem_nil c), by decide,
        trivial⟩, trivial⟩)

end SC2
